import Mathlib

/-!
# renforge: filtering, rename pipeline and plan building

A shallow embedding of the core of `renforge.go` (filter engine, rename
pipeline, validator, plan builder, execution of a plan, undo log) together with
the theorems settled about it.

Modelling conventions.

* A Go `string` is a Lean `String`, read as its sequence of Unicode code
  points (the Go strings handled here are file names and user text, taken to be
  valid UTF-8).  On valid UTF-8 the byte-wise operations of package `strings`
  (`Contains`, `HasPrefix`, `HasSuffix`, `ReplaceAll`, `TrimSuffix`, comparison)
  coincide with the same operations on code points.
* The functions of `path/filepath` are the ones of a Unix target: the only
  path separator is `/` and there is no volume name.
* The rune case tables behind `strings.ToLower` and `strings.ToUpper` are not
  part of the repository; they are a parameter (`UnicodeTables`).
* A Go `int` counter is a `Nat` (the counters never exceed a slice length).
* `os.Stat(p)` succeeding is a predicate `statOk : String → Bool`.
* `os.Rename` is a function of a world `σ` threaded through the calls: it
  returns the error message, if any, and the world after the call.
* The undo CSV is the list of records handed to the CSV writer; creating and
  writing the file are taken to succeed.
-/

namespace Renforge

/-! ## Package `unicode` / `strings` -/

/-- The rune case mappings `unicode.ToLower` and `unicode.ToUpper`. -/
class UnicodeTables where
  toLower : Char → Char
  toUpper : Char → Char

/-- The case mappings on the ASCII letters, every other rune kept as it is. -/
def asciiTables : UnicodeTables where
  toLower := fun c => if 65 ≤ c.toNat ∧ c.toNat ≤ 90 then Char.ofNat (c.toNat + 32) else c
  toUpper := fun c => if 97 ≤ c.toNat ∧ c.toNat ≤ 122 then Char.ofNat (c.toNat - 32) else c

/-- Go `unicode.IsSpace`: the Latin-1 spaces and the White_Space property. -/
def IsSpace (c : Char) : Bool :=
  let n := c.toNat
  (9 ≤ n && n ≤ 13) || n == 32 || n == 0x85 || n == 0xA0 || n == 0x1680 ||
  (0x2000 ≤ n && n ≤ 0x200a) || n == 0x2028 || n == 0x2029 || n == 0x202f ||
  n == 0x205f || n == 0x3000

/-- Code points of `strings.TrimSpace`: spaces dropped at both ends. -/
def trimSpaceChars (l : List Char) : List Char :=
  ((l.dropWhile IsSpace).reverse.dropWhile IsSpace).reverse

/-- Go `strings.TrimSpace`. -/
def TrimSpace (s : String) : String := ⟨trimSpaceChars s.data⟩

/-- Go `strings.ToLower`: `unicode.ToLower` mapped over the runes. -/
def ToLower [UnicodeTables] (s : String) : String := ⟨s.data.map UnicodeTables.toLower⟩

/-- Go `strings.ToUpper`: `unicode.ToUpper` mapped over the runes. -/
def ToUpper [UnicodeTables] (s : String) : String := ⟨s.data.map UnicodeTables.toUpper⟩

/-- Go `strings.HasPrefix`. -/
def HasPrefix (s pre : String) : Bool := pre.data.isPrefixOf s.data

/-- Go `strings.HasSuffix`. -/
def HasSuffix (s suf : String) : Bool := suf.data.reverse.isPrefixOf s.data.reverse

/-- Code points of `strings.Contains`: `sub` starts at some position of the list. -/
def containsChars (sub : List Char) : List Char → Bool
  | [] => sub.isPrefixOf []
  | c :: cs => sub.isPrefixOf (c :: cs) || containsChars sub cs

/-- Go `strings.Contains`. -/
def Contains (s sub : String) : Bool := containsChars sub.data s.data

/-- Go `strings.ContainsAny`: some rune of `s` is a rune of `chars`. -/
def ContainsAny (s chars : String) : Bool := s.data.any (fun c => chars.data.contains c)

/-- Go `strings.TrimSuffix`. -/
def TrimSuffix (s suf : String) : String :=
  if HasSuffix s suf then ⟨s.data.take (s.data.length - suf.data.length)⟩ else s

/-- Code points of `strings.ReplaceAll` for a non-empty `old`: scanning left to
right, `skip` counts the runes of a match still to be passed over. -/
def replaceChars (old new : List Char) : Nat → List Char → List Char
  | _, [] => []
  | skip + 1, _ :: cs => replaceChars old new skip cs
  | 0, c :: cs =>
    if old.isPrefixOf (c :: cs) then new ++ replaceChars old new (old.length - 1) cs
    else c :: replaceChars old new 0 cs

/-- Code points of `strings.ReplaceAll` for the empty `old`: `new` is put at the
start and after every rune. -/
def interleaveChars (new : List Char) : List Char → List Char
  | [] => new
  | c :: cs => new ++ c :: interleaveChars new cs

/-- Go `strings.ReplaceAll`. -/
def ReplaceAll (s old new : String) : String :=
  if old.data = [] then ⟨interleaveChars new.data s.data⟩
  else ⟨replaceChars old.data new.data 0 s.data⟩

/-! ## Package `path/filepath` (Unix) -/

/-- Loop of `filepath.Ext`, running from the last rune backwards: `rev` is the
part not yet seen, reversed; `acc` is the part already passed. -/
def extScan : List Char → List Char → List Char
  | [], _ => []
  | c :: rev, acc =>
    if c = '/' then []
    else if c = '.' then '.' :: acc
    else extScan rev (c :: acc)

/-- Go `filepath.Ext`. -/
def Ext (path : String) : String := ⟨extScan path.data.reverse []⟩

/-- Path elements between the separators, empty ones included. -/
def splitSlash : List Char → List (List Char)
  | [] => [[]]
  | c :: cs =>
    match splitSlash cs with
    | [] => if c = '/' then [[], []] else [[c]]
    | e :: es => if c = '/' then [] :: e :: es else (c :: e) :: es

/-- One element of the main loop of `filepath.Clean`; `out` holds the elements
written so far, last one first. -/
def cleanStep (rooted : Bool) (out : List (List Char)) (e : List Char) : List (List Char) :=
  if e = [] then out
  else if e = ['.'] then out
  else if e = ['.', '.'] then
    match out with
    | [] => if rooted then [] else [['.', '.']]
    | top :: rest => if top = ['.', '.'] then ['.', '.'] :: top :: rest else rest
  else e :: out

/-- Go `filepath.Clean`. -/
def Clean (path : String) : String :=
  if path.data = [] then "."
  else
    let rooted := path.data.head? == some '/'
    let out := ((splitSlash path.data).foldl (cleanStep rooted) []).reverse
    let body := List.intercalate ['/'] out
    if rooted then ⟨'/' :: body⟩
    else if body = [] then "."
    else ⟨body⟩

/-- Go `filepath.Base`. -/
def Base (path : String) : String :=
  if path.data = [] then "."
  else
    let stripped := path.data.reverse.dropWhile (fun c => c == '/')
    let last := (stripped.takeWhile (fun c => c != '/')).reverse
    if last = [] then "/" else ⟨last⟩

/-- Go `filepath.Dir`. -/
def Dir (path : String) : String :=
  Clean ⟨(path.data.reverse.dropWhile (fun c => c != '/')).reverse⟩

/-- Go `filepath.Join` of two elements. -/
def Join (a b : String) : String :=
  if a ≠ "" then Clean (a ++ "/" ++ b)
  else if b ≠ "" then Clean b
  else ""

/-! ## Package `sort` -/

/-- Go string comparison `a <= b` on code points: lexicographic order. -/
def leChars : List Char → List Char → Bool
  | [], _ => true
  | _ :: _, [] => false
  | a :: as, b :: bs => a.toNat < b.toNat || (a.toNat == b.toNat && leChars as bs)

/-- Go `a <= b` on strings. -/
def strLe (a b : String) : Prop := leChars a.data b.data = true

instance strLe.decidable : DecidableRel strLe := fun a b =>
  inferInstanceAs (Decidable (leChars a.data b.data = true))

/-- Go `sort.Strings`: the ascending arrangement of the slice.  The order is
total and antisymmetric, so the arrangement does not depend on the sorting
method; insertion is used here. -/
def sortStrings (l : List String) : List String := List.insertionSort strLe l

/-! ## Go maps with string keys -/

/-- Read `m[k]`, the zero value `zero` when the key is absent. -/
def mapGet {α : Type} (zero : α) : List (String × α) → String → α
  | [], _ => zero
  | (k, v) :: m, key => if key = k then v else mapGet zero m key

/-- Write `m[k] = v`. -/
def mapSet {α : Type} (m : List (String × α)) (k : String) (v : α) : List (String × α) :=
  (k, v) :: m

/-! ## Data model -/

/-- Go `FilterRule`. -/
structure FilterRule where
  ID : Int
  Mode : String
  Value : String
deriving DecidableEq, Repr

/-- Go `RenameOp`. -/
abbrev RenameOp := String

def OpRemoveText : RenameOp := "Remove text"
def OpReplaceText : RenameOp := "Replace text"
def OpInsertBeforeExt : RenameOp := "Insert before extension"
def OpChangeExt : RenameOp := "Change extension"
def OpAppend : RenameOp := "Append"
def OpPrepend : RenameOp := "Prepend"

/-- Go `RenameStep`. -/
structure RenameStep where
  ID : Int
  Op : RenameOp
  A : String
  B : String
deriving DecidableEq, Repr

/-- Go `AppState`. -/
structure AppState where
  folderPath : String := ""
  allFiles : List String := []
  filteredFiles : List String := []
  viewFiles : List String := []
  page : Int := 0
  pageSize : Int := 0
  filters : List FilterRule := []
  nextFilterID : Int := 0
  matchAll : Bool := false
  caseSensitive : Bool := false
  steps : List RenameStep := []
  nextStepID : Int := 0
  previewCounts : List (String × Nat) := []

/-- Go `RenamePlanItem`. -/
structure RenamePlanItem where
  OldPath : String
  NewPath : String
  OldName : String
  NewName : String
  Status : String
  Reason : String
deriving DecidableEq, Repr

/-- Go `PlanSummary`. -/
structure PlanSummary where
  Total : Nat := 0
  OkCount : Nat := 0
  Unchanged : Nat := 0
  Invalid : List String := []
  Duplicate : List String := []
  TargetExists : List String := []
deriving DecidableEq, Repr

/-! ## Filter engine -/

/-- The closure `ruleMatch` of `matchesRules`; `name` is the subject after the
optional lower-casing done before the closure is built. -/
def ruleMatch [UnicodeTables] (filename name : String) (caseSensitive : Bool)
    (r : FilterRule) : Bool :=
  let val := TrimSpace r.Value
  if val = "" then true
  else
    let check := name
    let v := if !caseSensitive then ToLower val else val
    if r.Mode = "contains" then Contains check v
    else if r.Mode = "starts with" then HasPrefix check v
    else if r.Mode = "ends with" then HasSuffix check v
    else if r.Mode = "extension" then
      let ext := Ext filename
      let vx := if !HasPrefix v "." then "." ++ v else v
      let ext := if !caseSensitive then ToLower ext else ext
      let vx := if !caseSensitive then ToLower vx else vx
      ext == vx
    else Contains check v

/-- The loop of `matchesRules` under `matchAll`: false at the first failing rule. -/
def matchesRules.allLoop (m : FilterRule → Bool) : List FilterRule → Bool
  | [] => true
  | r :: rs => if !m r then false else matchesRules.allLoop m rs

/-- The loop of `matchesRules` without `matchAll`: true at the first matching rule. -/
def matchesRules.anyLoop (m : FilterRule → Bool) : List FilterRule → Bool
  | [] => false
  | r :: rs => if m r then true else matchesRules.anyLoop m rs

/-- Go `matchesRules`. -/
def matchesRules [UnicodeTables] (filename : String) (rules : List FilterRule)
    (matchAll caseSensitive : Bool) : Bool :=
  if rules.length = 0 then true
  else
    let name := if !caseSensitive then ToLower filename else filename
    if matchAll then matchesRules.allLoop (ruleMatch filename name caseSensitive) rules
    else matchesRules.anyLoop (ruleMatch filename name caseSensitive) rules

/-- The loop of `filterFilesMulti`, `out` being the slice appended to. -/
def filterFilesMulti.loop [UnicodeTables] (rules : List FilterRule)
    (matchAll caseSensitive : Bool) : List String → List String → List String
  | [], out => out
  | full :: rest, out =>
    let base := Base full
    if matchesRules base rules matchAll caseSensitive then
      filterFilesMulti.loop rules matchAll caseSensitive rest (out ++ [full])
    else filterFilesMulti.loop rules matchAll caseSensitive rest out

/-- Go `filterFilesMulti`. -/
def filterFilesMulti [UnicodeTables] (all : List String) (rules : List FilterRule)
    (matchAll caseSensitive : Bool) : List String :=
  sortStrings (filterFilesMulti.loop rules matchAll caseSensitive all [])

/-! ## Rename pipeline -/

/-- The body of the loop of `applyRenameSteps`: the `switch` on the operation. -/
def applyRenameSteps.body (name : String) (s : RenameStep) : String :=
  if s.Op = OpRemoveText then
    if s.A ≠ "" then ReplaceAll name s.A "" else name
  else if s.Op = OpReplaceText then
    if s.A ≠ "" then ReplaceAll name s.A s.B else name
  else if s.Op = OpInsertBeforeExt ∨ s.Op = OpAppend then
    let base := TrimSuffix name (Ext name)
    let ext := Ext name
    base ++ s.A ++ ext
  else if s.Op = OpPrepend then
    let base := TrimSuffix name (Ext name)
    let ext := Ext name
    s.A ++ base ++ ext
  else if s.Op = OpChangeExt then
    let base := TrimSuffix name (Ext name)
    let newExt := TrimSpace s.A
    if newExt = "" then base
    else
      let newExt := if !HasPrefix newExt "." then "." ++ newExt else newExt
      base ++ newExt
  else name

/-- The loop of `applyRenameSteps`. -/
def applyRenameSteps.loop : String → List RenameStep → String
  | name, [] => name
  | name, s :: rest => applyRenameSteps.loop (applyRenameSteps.body name s) rest

/-- Go `applyRenameSteps`. -/
def applyRenameSteps (original : String) (steps : List RenameStep) : String :=
  if steps.length = 0 then original
  else TrimSpace (applyRenameSteps.loop original steps)

/-! ## Validations -/

/-- The map literal `reserved` of `invalidNameReason`. -/
def reserved : List (String × Bool) :=
  [("CON", true), ("PRN", true), ("AUX", true), ("NUL", true),
   ("COM1", true), ("COM2", true), ("COM3", true), ("COM4", true), ("COM5", true),
   ("COM6", true), ("COM7", true), ("COM8", true), ("COM9", true),
   ("LPT1", true), ("LPT2", true), ("LPT3", true), ("LPT4", true), ("LPT5", true),
   ("LPT6", true), ("LPT7", true), ("LPT8", true), ("LPT9", true)]

/-- Go `invalidNameReason`. -/
def invalidNameReason [UnicodeTables] (name : String) : String :=
  let trim := TrimSpace name
  if trim = "" then "empty name"
  else if ContainsAny trim "<>:\"/\\|?*" then "invalid characters"
  else
    let base := TrimSuffix trim (Ext trim)
    if mapGet false reserved (ToUpper base) then "reserved filename"
    else ""

/-! ## Plan building -/

/-- First loop of `buildPlan`: fills `previewByOld` and `dupCount`. -/
def buildPlan.tally (steps : List RenameStep) :
    List String → List (String × String) × List (String × Nat) →
      List (String × String) × List (String × Nat)
  | [], acc => acc
  | p :: rest, (previewByOld, dupCount) =>
    let oldName := Base p
    let newName := applyRenameSteps oldName steps
    buildPlan.tally steps rest
      (mapSet previewByOld oldName newName,
       mapSet dupCount newName (mapGet 0 dupCount newName + 1))

/-- Body of the second loop of `buildPlan` for one path: the item appended and
the summary after it. -/
def buildPlan.classify [UnicodeTables] (statOk : String → Bool)
    (previewByOld : List (String × String)) (dupCount : List (String × Nat))
    (oldPath : String) (sum : PlanSummary) : RenamePlanItem × PlanSummary :=
  let oldName := Base oldPath
  let newName := mapGet "" previewByOld oldName
  let newPath := Join (Dir oldPath) newName
  let it : RenamePlanItem :=
    { OldPath := oldPath, NewPath := newPath, OldName := oldName, NewName := newName,
      Status := "ok", Reason := "" }
  if newName = oldName then
    ({ it with Status := "skip", Reason := "unchanged" },
     { sum with Unchanged := sum.Unchanged + 1 })
  else
    let reason := invalidNameReason newName
    if reason ≠ "" then
      ({ it with Status := "skip", Reason := "invalid: " ++ reason },
       { sum with Invalid := sum.Invalid ++
           [oldName ++ " → " ++ newName ++ " (" ++ reason ++ ")"] })
    else if mapGet 0 dupCount newName > 1 then
      ({ it with Status := "skip", Reason := "conflict: duplicate preview name" },
       { sum with Duplicate := sum.Duplicate ++ [oldName ++ " → " ++ newName] })
    else if statOk newPath then
      ({ it with Status := "skip", Reason := "conflict: target exists on disk" },
       { sum with TargetExists := sum.TargetExists ++ [oldName ++ " → " ++ newName] })
    else
      (it, { sum with OkCount := sum.OkCount + 1 })

/-- Second loop of `buildPlan`. -/
def buildPlan.loop [UnicodeTables] (statOk : String → Bool)
    (previewByOld : List (String × String)) (dupCount : List (String × Nat)) :
    List String → List RenamePlanItem × PlanSummary → List RenamePlanItem × PlanSummary
  | [], acc => acc
  | oldPath :: rest, (items, sum) =>
    let r := buildPlan.classify statOk previewByOld dupCount oldPath sum
    buildPlan.loop statOk previewByOld dupCount rest (items ++ [r.1], r.2)

/-- Go `buildPlan`; `statOk p` says that `os.Stat(p)` returns no error. -/
def buildPlan [UnicodeTables] (statOk : String → Bool) (state : AppState) :
    List RenamePlanItem × PlanSummary :=
  let maps := buildPlan.tally state.steps state.filteredFiles ([], [])
  let sum : PlanSummary := { Total := state.filteredFiles.length }
  buildPlan.loop statOk maps.1 maps.2 state.filteredFiles ([], sum)

/-! ## Execution of a plan -/

/-- The item `applyRenames` appends for an "ok" item, given what `os.Rename`
returned: `none` for no error, `some msg` for an error whose `Error()` is `msg`. -/
def applyRenames.record (it : RenamePlanItem) (err : Option String) : RenamePlanItem :=
  match err with
  | some msg => { it with Status := "error", Reason := msg }
  | none => { it with Status := "renamed", Reason := "" }

/-- The loop of `applyRenames`.  `rename w old new` is `os.Rename(old, new)` run
in the world `w`: the error it returns, if any, and the world after the call. -/
def applyRenames.loop {σ : Type} (rename : σ → String → String → Option String × σ) :
    List RenamePlanItem → List RenamePlanItem × σ → List RenamePlanItem × σ
  | [], acc => acc
  | it :: rest, (out, w) =>
    if it.Status ≠ "ok" then applyRenames.loop rename rest (out ++ [it], w)
    else
      let r := rename w it.OldPath it.NewPath
      applyRenames.loop rename rest (out ++ [applyRenames.record it r.1], r.2)

/-- Go `applyRenames`, with the world it leaves. -/
def applyRenames {σ : Type} (rename : σ → String → String → Option String × σ)
    (plan : List RenamePlanItem) (w : σ) : List RenamePlanItem × σ :=
  applyRenames.loop rename plan ([], w)

/-! ## Undo CSV -/

/-- The header record of the undo CSV. -/
def undoHeader : List String :=
  ["old_path", "new_path", "old_name", "new_name", "status", "reason"]

/-- The loop of `writeUndoCSV` and of `overwriteUndoCSV`: one record per item,
after the records `recs` already handed to the CSV writer. -/
def writeUndoCSV.loop : List RenamePlanItem → List (List String) → List (List String)
  | [], recs => recs
  | it :: rest, recs =>
    writeUndoCSV.loop rest
      (recs ++ [[it.OldPath, it.NewPath, it.OldName, it.NewName, it.Status, it.Reason]])

/-- Go `writeUndoCSV`: the records the file holds afterwards (the writes are
taken to succeed). -/
def writeUndoCSV (plan : List RenamePlanItem) : List (List String) :=
  writeUndoCSV.loop plan [undoHeader]

/-- Go `overwriteUndoCSV`: the file is created anew and holds these records
afterwards (creation and writes are taken to succeed). -/
def overwriteUndoCSV (plan : List RenamePlanItem) : List (List String) :=
  writeUndoCSV.loop plan [undoHeader]

/-! ## The Apply button -/

/-- What the user has set and answers when Apply is pressed. -/
structure ApplyDialog where
  /-- The box `dryRunCheck`. -/
  dryRun : Bool := true
  /-- The box `undoLogCheck`. -/
  undoLog : Bool := true
  /-- The answer to the confirmation: Proceed or Cancel. -/
  proceed : Bool := true
  /-- The path chosen in the save dialog, `none` when the dialog is cancelled. -/
  savePath : Option String := none

/-- What the Apply handler leaves behind. -/
structure ApplyOutcome (σ : Type) where
  /-- The records of the saved undo CSV, `none` when no file was saved. -/
  csv : Option (List (List String))
  /-- The items the result message is built from. -/
  shown : List RenamePlanItem
  /-- The world after the handler. -/
  world : σ

/-- The handler of the Apply button in `main`, from `buildPlan` to the result
dialog. -/
def applyButton [UnicodeTables] {σ : Type} (statOk : String → Bool)
    (rename : σ → String → String → Option String × σ)
    (state : AppState) (dlg : ApplyDialog) (w : σ) : ApplyOutcome σ :=
  if state.folderPath = "" ∨ state.filteredFiles.length = 0 then ⟨none, [], w⟩
  else
    let plan := (buildPlan statOk state).1
    if !dlg.proceed then ⟨none, [], w⟩
    else
      -- doWithOptionalCSV: the file written before anything is executed
      let saved : Option (List (List String)) × String :=
        if !dlg.undoLog then (none, "")
        else
          match dlg.savePath with
          | none => (none, "")
          | some path => (some (writeUndoCSV plan), path)
      let savedCSV := saved.2
      if dlg.dryRun then
        let plan := plan.map (fun it => if it.Status = "ok" then { it with Status := "dry-run" } else it)
        ⟨saved.1, plan, w⟩
      else
        let applyResults := applyRenames rename plan w
        let csv := if savedCSV ≠ "" then some (overwriteUndoCSV applyResults.1) else saved.1
        ⟨csv, applyResults.1, applyResults.2⟩

/-! ## Definitions following the specification -/

/-- Spec: the extension of a name, its suffix from the last dot on, empty when
the name has no dot. -/
def lastDotSuffix : List Char → List Char
  | [] => []
  | c :: cs => if '.' ∈ cs then lastDotSuffix cs else if c = '.' then c :: cs else []

/-- Spec: the stem of a name, what stands before its last dot, the whole name
when it has no dot. -/
def lastDotStem : List Char → List Char
  | [] => []
  | c :: cs => if '.' ∈ cs then c :: lastDotStem cs else if c = '.' then [] else c :: cs

/-- Spec: extension of a name (suffix from the last dot). -/
def specExt (s : String) : String := ⟨lastDotSuffix s.data⟩

/-- Spec: stem of a name (the rest before the extension). -/
def specStem (s : String) : String := ⟨lastDotStem s.data⟩

/-- Spec: the characters a name may not contain. -/
def forbiddenChars : List Char := ['<', '>', ':', '"', '/', '\\', '|', '?', '*']

/-- Spec: the reserved device names. -/
def reservedNames : List String :=
  ["CON", "PRN", "AUX", "NUL",
   "COM1", "COM2", "COM3", "COM4", "COM5", "COM6", "COM7", "COM8", "COM9",
   "LPT1", "LPT2", "LPT3", "LPT4", "LPT5", "LPT6", "LPT7", "LPT8", "LPT9"]

/-- Spec: the proposed name of a filtered path, the pipeline applied to its
base name. -/
def proposedName (steps : List RenameStep) (p : String) : String :=
  applyRenameSteps (Base p) steps

/-- Spec: how many files of the filtered batch have the proposed name `name`. -/
def duplicateCount (files : List String) (steps : List RenameStep) (name : String) : Nat :=
  files.countP (fun q => proposedName steps q == name)

/-- Spec: status and reason of a filtered path, by the first rule that applies:
unchanged, invalid, duplicate in the batch, target on disk, else ok. -/
def specStatusReason [UnicodeTables] (statOk : String → Bool) (files : List String)
    (steps : List RenameStep) (oldPath : String) : String × String :=
  if proposedName steps oldPath = Base oldPath then ("skip", "unchanged")
  else if invalidNameReason (proposedName steps oldPath) ≠ "" then
    ("skip", "invalid: " ++ invalidNameReason (proposedName steps oldPath))
  else if 1 < duplicateCount files steps (proposedName steps oldPath) then
    ("skip", "conflict: duplicate preview name")
  else if statOk (Join (Dir oldPath) (proposedName steps oldPath)) then
    ("skip", "conflict: target exists on disk")
  else ("ok", "")

/-- Spec: the plan item of a filtered path. -/
def specItem [UnicodeTables] (statOk : String → Bool) (files : List String)
    (steps : List RenameStep) (oldPath : String) : RenamePlanItem :=
  { OldPath := oldPath
    NewPath := Join (Dir oldPath) (proposedName steps oldPath)
    OldName := Base oldPath
    NewName := proposedName steps oldPath
    Status := (specStatusReason statOk files steps oldPath).1
    Reason := (specStatusReason statOk files steps oldPath).2 }

/-- Spec: an extension operand normalised to a leading dot. -/
def withLeadingDot (a : String) : String := if HasPrefix a "." then a else "." ++ a

/-- Spec: the single-step transform of the rename pipeline, over a given
splitting of a name into stem and extension. -/
def specStepWith (stem ext : String → String) (name : String) (s : RenameStep) : String :=
  if s.Op = OpRemoveText then
    if s.A = "" then name else ReplaceAll name s.A ""
  else if s.Op = OpReplaceText then
    if s.A = "" then name else ReplaceAll name s.A s.B
  else if s.Op = OpInsertBeforeExt ∨ s.Op = OpAppend then stem name ++ s.A ++ ext name
  else if s.Op = OpPrepend then s.A ++ stem name ++ ext name
  else if s.Op = OpChangeExt then
    if TrimSpace s.A = "" then stem name else stem name ++ withLeadingDot (TrimSpace s.A)
  else name

/-- Spec: the single-step transform with the extension read as the suffix from
the last dot and the stem as the rest. -/
def specStep (name : String) (s : RenameStep) : String :=
  specStepWith specStem specExt name s

/-- The extension as `filepath.Ext` reads it: the suffix from the last dot,
empty when a path separator follows that dot. -/
def specPathExt (s : String) : String :=
  if '/' ∈ (specExt s).data then "" else specExt s

/-- The stem that goes with `specPathExt`: the whole name when a path separator
follows the last dot. -/
def specPathStem (s : String) : String :=
  if '/' ∈ (specExt s).data then s else specStem s

/-- Spec: case folding of the filter engine, applied unless the match is case
sensitive. -/
def foldCase [UnicodeTables] (caseSensitive : Bool) (s : String) : String :=
  if caseSensitive then s else ToLower s

/-- Spec: the test of one rule against a base name under the rule's mode, for a
rule whose trimmed value is not empty: prefix test, suffix test, equality of the
extension with the value normalised to a leading dot, and the substring test
for "contains" and for every other mode. -/
def matchesUnderMode [UnicodeTables] (filename : String) (caseSensitive : Bool)
    (r : FilterRule) : Bool :=
  let v := foldCase caseSensitive (TrimSpace r.Value)
  if r.Mode = "starts with" then HasPrefix (foldCase caseSensitive filename) v
  else if r.Mode = "ends with" then HasSuffix (foldCase caseSensitive filename) v
  else if r.Mode = "extension" then
    foldCase caseSensitive (Ext filename) == foldCase caseSensitive (withLeadingDot v)
  else Contains (foldCase caseSensitive filename) v

/-- Spec example: the folder listing of the scenario, as `listAllFiles` sorts it. -/
def scenarioFiles : List String :=
  ["/films/The Whale.mkv", "/films/readme.txt", "/films/the_hobbit.mkv"]

/-- Spec example: the single filter rule, extension "mkv". -/
def scenarioRules : List FilterRule := [⟨1, "extension", "mkv"⟩]

/-- Spec example: replace "the" by "The", then change the extension to "mp4". -/
def scenarioSteps : List RenameStep :=
  [⟨1, OpReplaceText, "the", "The"⟩, ⟨2, OpChangeExt, "mp4", ""⟩]

/-- Spec example: the state on which the plan is built. -/
def scenarioState (caseSensitive : Bool) : AppState :=
  { folderPath := "/films"
    allFiles := scenarioFiles
    filteredFiles := @filterFilesMulti asciiTables scenarioFiles scenarioRules true caseSensitive
    filters := scenarioRules
    matchAll := true
    caseSensitive := caseSensitive
    steps := scenarioSteps }

/-- Example for the duplicate rule: two files of one folder. -/
def duplicateFiles : List String := ["/d/a.txt", "/d/b.txt"]

/-- Example for the duplicate rule: "b" replaced by "a", which leaves "a.txt"
unchanged and sends "b.txt" onto it. -/
def collideOntoUnchanged : List RenameStep := [⟨1, OpReplaceText, "b", "a"⟩]

/-- Example for the duplicate rule: both names are sent to "c.txt". -/
def collideBoth : List RenameStep :=
  [⟨1, OpReplaceText, "a", "c"⟩, ⟨2, OpReplaceText, "b", "c"⟩]

/-- Spec: a remove-text or replace-text step whose operand A is empty. -/
def isEmptyOperandStep (st : RenameStep) : Prop :=
  (st.Op = OpRemoveText ∨ st.Op = OpReplaceText) ∧ st.A = ""

/-- One `os.Rename` call as seen from outside: old path, new path, error returned. -/
abbrev RenameCall := String × String × Option String

/-- Spec: a world that also keeps the list of the `os.Rename` calls made in it,
in the order they were made; the calls themselves behave as in `rename`. -/
def logged {σ : Type} (rename : σ → String → String → Option String × σ) :
    σ × List RenameCall → String → String → Option String × (σ × List RenameCall) :=
  fun wl old new =>
    ((rename wl.1 old new).1, ((rename wl.1 old new).2, wl.2 ++ [(old, new, (rename wl.1 old new).1)]))

/-- Spec: how an executed item relates to the "ok" item it comes from, given the
error of its rename call: paths and names kept, "renamed" with empty reason on
success, "error" with the failure message on failure. -/
def specExecuted (it o : RenamePlanItem) (err : Option String) : Prop :=
  o.OldPath = it.OldPath ∧ o.NewPath = it.NewPath ∧
  o.OldName = it.OldName ∧ o.NewName = it.NewName ∧
  (err = none → o.Status = "renamed" ∧ o.Reason = "") ∧
  (∀ msg, err = some msg → o.Status = "error" ∧ o.Reason = msg)

/-- Spec: the items returned for a plan, one after the other, each "ok" item
with the outcome of its own rename call in the world left by the earlier calls. -/
def renameResults {σ : Type} (rename : σ → String → String → Option String × σ) :
    List RenamePlanItem → σ → List RenamePlanItem × σ
  | [], w => ([], w)
  | it :: rest, w =>
    if it.Status ≠ "ok" then (it :: (renameResults rename rest w).1, (renameResults rename rest w).2)
    else
      (applyRenames.record it (rename w it.OldPath it.NewPath).1 ::
          (renameResults rename rest (rename w it.OldPath it.NewPath).2).1,
        (renameResults rename rest (rename w it.OldPath it.NewPath).2).2)

/-- Spec: the rename calls of a plan, one per "ok" item, in plan order. -/
def callTrace {σ : Type} (rename : σ → String → String → Option String × σ) :
    List RenamePlanItem → σ → List RenameCall
  | [], _ => []
  | it :: rest, w =>
    if it.Status ≠ "ok" then callTrace rename rest w
    else
      (it.OldPath, it.NewPath, (rename w it.OldPath it.NewPath).1) ::
        callTrace rename rest (rename w it.OldPath it.NewPath).2

/-- Spec: the record of the undo CSV for one plan item. -/
def undoRecord (it : RenamePlanItem) : List String :=
  [it.OldPath, it.NewPath, it.OldName, it.NewName, it.Status, it.Reason]

/-- Example for the undo log: one file whose name gets "_x" before the
extension. -/
def undoExampleState : AppState :=
  { folderPath := "/d", allFiles := ["/d/a.txt"], filteredFiles := ["/d/a.txt"],
    matchAll := true, steps := [⟨1, OpAppend, "_x", ""⟩] }

/-- Example for the undo log: both boxes as `main` sets them (dry run and undo
log checked), the user proceeds and saves the log as "/d/undo.csv". -/
def undoExampleDialog : ApplyDialog :=
  { dryRun := true, undoLog := true, proceed := true, savePath := some "/d/undo.csv" }

/-- Example for the undo log: a world without state in which every rename
succeeds. -/
def renameAlwaysOk : Unit → String → String → Option String × Unit :=
  fun _ _ _ => (none, ())

/-- The last step of `filepath.Clean`: the path written out from the elements
kept, last one first. -/
def renderPath (rooted : Bool) (out : List (List Char)) : String :=
  if rooted then ⟨'/' :: List.intercalate ['/'] out.reverse⟩
  else if List.intercalate ['/'] out.reverse = [] then "."
  else ⟨List.intercalate ['/'] out.reverse⟩

/-- The elements `filepath.Clean` keeps: none is empty, none is ".", none holds
a separator. -/
def goodStack (out : List (List Char)) : Prop :=
  ∀ x ∈ out, x ≠ [] ∧ x ≠ ['.'] ∧ '/' ∉ x

/-- The ".." elements `filepath.Clean` keeps stand first in the path: in the
list of elements kept, last one first, whatever lies under a ".." is a "..". -/
def ddBottom : List (List Char) → Prop
  | [] => True
  | x :: rest => (x = ['.', '.'] → ∀ y ∈ rest, y = ['.', '.']) ∧ ddBottom rest

/-- Example for the targets: a disk on which the folder "/films" exists and
none of the proposed targets does. -/
def filmsFolderOnly : String → Bool := fun p => p == "/films"

/-! ## Lemmas on strings and paths -/

theorem string_eq_iff (s t : String) : s = t ↔ s.data = t.data :=
  ⟨fun h => h ▸ rfl, String.ext⟩

theorem trimSpaceChars_eq_nil (l : List Char) :
    trimSpaceChars l = [] ↔ ∀ c ∈ l, IsSpace c = true := by
  have h : trimSpaceChars l = List.rdropWhile IsSpace (l.dropWhile IsSpace) := rfl
  rw [h, List.rdropWhile_eq_nil_iff]
  constructor
  · intro hall
    by_cases hd : l.dropWhile IsSpace = []
    · exact List.dropWhile_eq_nil_iff.mp hd
    · have h1 := List.head_dropWhile_not IsSpace l hd
      have h2 := hall _ (List.head_mem hd)
      simp [h2] at h1
  · intro hall
    rw [List.dropWhile_eq_nil_iff.mpr hall]
    simp

theorem TrimSpace_eq_empty (s : String) :
    TrimSpace s = "" ↔ ∀ c ∈ s.data, IsSpace c = true := by
  rw [string_eq_iff]
  exact trimSpaceChars_eq_nil s.data

theorem lastDotSuffix_of_not_mem {l : List Char} (h : '.' ∉ l) : lastDotSuffix l = [] := by
  induction l with
  | nil => rfl
  | cons c cs ih =>
    have h1 : '.' ∉ cs := fun hm => h (List.mem_cons_of_mem _ hm)
    have h2 : c ≠ '.' := fun hc => h (hc ▸ List.mem_cons_self _ _)
    simp [lastDotSuffix, h1, h2]

theorem lastDotSuffix_append_dot (pre acc : List Char) (h : '.' ∉ acc) :
    lastDotSuffix (pre ++ '.' :: acc) = '.' :: acc := by
  induction pre with
  | nil => simp [lastDotSuffix, h]
  | cons c cs ih => simp [lastDotSuffix, ih]

theorem lastDotSuffix_suffix (l : List Char) : lastDotSuffix l <:+ l := by
  induction l with
  | nil => exact List.suffix_refl _
  | cons c cs ih =>
    unfold lastDotSuffix
    split_ifs with h1 h2
    · exact List.IsSuffix.trans ih (List.suffix_cons c cs)
    · exact List.suffix_refl _
    · exact List.nil_suffix

theorem lastDotStem_append_suffix (l : List Char) : lastDotStem l ++ lastDotSuffix l = l := by
  induction l with
  | nil => rfl
  | cons c cs ih =>
    unfold lastDotStem lastDotSuffix
    split_ifs with h1 h2
    · simp [ih]
    · simp
    · simp

theorem lastDotSuffix_append (pre acc : List Char) (h : '.' ∉ acc) :
    lastDotSuffix (pre ++ acc) = if '.' ∈ pre then lastDotSuffix pre ++ acc else [] := by
  induction pre with
  | nil => simp [lastDotSuffix_of_not_mem h]
  | cons c cs ih =>
    have hm : '.' ∈ cs ++ acc ↔ '.' ∈ cs := by simp [h]
    by_cases h1 : '.' ∈ cs
    · simp [lastDotSuffix, hm, h1, ih]
    · by_cases h2 : c = '.'
      · subst h2
        simp [lastDotSuffix, h, h1]
      · have h3 : ¬ '.' = c := fun e => h2 e.symm
        simp [lastDotSuffix, h, h1, h2, h3]

/-- What the loop of `filepath.Ext` returns, once `acc` holds neither a dot nor
a separator: the suffix from the last dot, unless a separator follows that dot. -/
theorem extScan_eq (rev acc : List Char) (hdot : '.' ∉ acc) (hsep : '/' ∉ acc) :
    extScan rev acc =
      if '/' ∈ lastDotSuffix (rev.reverse ++ acc) then []
      else lastDotSuffix (rev.reverse ++ acc) := by
  induction rev generalizing acc with
  | nil => simp [extScan, lastDotSuffix_of_not_mem hdot]
  | cons c rev ih =>
    unfold extScan
    by_cases hc : c = '/'
    · subst hc
      have hacc : '.' ∉ '/' :: acc := by
        intro hm
        rcases List.mem_cons.mp hm with h | h
        · exact absurd h (by decide)
        · exact hdot h
      simp only [if_true, List.reverse_cons, List.append_assoc, List.singleton_append]
      rw [lastDotSuffix_append _ _ hacc]
      by_cases hd : '.' ∈ rev.reverse
      · simp [hd]
      · simp [hd]
    · simp only [hc, if_false, List.reverse_cons, List.append_assoc, List.singleton_append]
      by_cases hc2 : c = '.'
      · subst hc2
        simp only [if_true]
        rw [lastDotSuffix_append_dot _ _ hdot]
        simp [hsep]
      · simp only [hc2, if_false]
        have h1 : '.' ∉ c :: acc := by
          intro hm
          rcases List.mem_cons.mp hm with h | h
          · exact hc2 h.symm
          · exact hdot h
        have h2 : '/' ∉ c :: acc := by
          intro hm
          rcases List.mem_cons.mp hm with h | h
          · exact hc h.symm
          · exact hsep h
        exact ih (c :: acc) h1 h2

/-- Spec: the extension as `filepath.Ext` sees it, the suffix from the last
dot unless a path separator follows that dot. -/
theorem Ext_data (s : String) :
    (Ext s).data =
      if '/' ∈ lastDotSuffix s.data then [] else lastDotSuffix s.data := by
  have h := extScan_eq s.data.reverse [] (by simp) (by simp)
  simpa [Ext] using h

theorem Ext_of_no_sep (s : String) (h : '/' ∉ s.data) : Ext s = specExt s := by
  rw [string_eq_iff, Ext_data]
  have : '/' ∉ lastDotSuffix s.data := fun hm => h ((lastDotSuffix_suffix s.data).subset hm)
  simp [this, specExt]

theorem Ext_suffix (s : String) : (Ext s).data <:+ s.data := by
  rw [Ext_data]
  split_ifs
  · exact List.nil_suffix
  · exact lastDotSuffix_suffix _

theorem TrimSuffix_of_suffix (s suf : String) (h : suf.data <:+ s.data) :
    (TrimSuffix s suf).data = s.data.take (s.data.length - suf.data.length) := by
  have : HasSuffix s suf = true := by
    simp only [HasSuffix, List.isPrefixOf_iff_prefix, List.reverse_prefix]
    exact h
  simp [TrimSuffix, this]

theorem stem_of_no_sep (s : String) (h : '/' ∉ s.data) :
    TrimSuffix s (Ext s) = specStem s := by
  rw [string_eq_iff, TrimSuffix_of_suffix _ _ (Ext_suffix s), Ext_of_no_sep s h]
  simp only [specExt, specStem]
  have e := lastDotStem_append_suffix s.data
  have hl : s.data.length - (lastDotSuffix s.data).length = (lastDotStem s.data).length := by
    have := congrArg List.length e
    rw [List.length_append] at this
    omega
  calc s.data.take (s.data.length - (lastDotSuffix s.data).length)
      = (lastDotStem s.data ++ lastDotSuffix s.data).take (lastDotStem s.data).length := by
        rw [e, hl]
    _ = lastDotStem s.data := by simp

theorem mapGet_true_keys (names : List String) (k : String) :
    mapGet false (names.map (fun n => (n, true))) k = true ↔ k ∈ names := by
  induction names with
  | nil => simp [mapGet]
  | cons n ns ih =>
    by_cases h : k = n
    · simp [mapGet, h]
    · simp [mapGet, h, ih]

theorem reserved_lookup (k : String) :
    mapGet false reserved k = true ↔ k ∈ reservedNames := by
  have h : reserved = reservedNames.map (fun n => (n, true)) := by decide
  rw [h]
  exact mapGet_true_keys _ _

theorem ContainsAny_forbidden (s : String) :
    ContainsAny s "<>:\"/\\|?*" = true ↔ ∃ c ∈ s.data, c ∈ forbiddenChars := by
  have h : ("<>:\"/\\|?*" : String).data = forbiddenChars := by decide
  unfold ContainsAny
  rw [h, List.any_eq_true]
  constructor
  · rintro ⟨c, hc, hm⟩
    exact ⟨c, hc, by simpa using hm⟩
  · rintro ⟨c, hc, hm⟩
    exact ⟨c, hc, by simpa using hm⟩

/-! ## C2: the validator -/

/-- C2. For every name, `invalidNameReason` is "empty name" when the name is
empty or all whitespace; otherwise "invalid characters" when the trimmed name
holds one of the characters `< > : " / \ | ? *`; otherwise "reserved filename"
when the trimmed name without its extension (the suffix from the last dot),
upper-cased, is one of CON, PRN, AUX, NUL, COM1..COM9, LPT1..LPT9; otherwise the
empty string.  The checks apply in this priority and nothing else gives a
non-empty reason. -/
theorem invalidNameReason_spec [UnicodeTables] (name : String) :
    invalidNameReason name =
      if ∀ c ∈ name.data, IsSpace c = true then "empty name"
      else if ∃ c ∈ (TrimSpace name).data, c ∈ forbiddenChars then "invalid characters"
      else if ToUpper (specStem (TrimSpace name)) ∈ reservedNames then "reserved filename"
      else "" := by
  unfold invalidNameReason
  simp only []
  by_cases h1 : ∀ c ∈ name.data, IsSpace c = true
  · rw [if_pos ((TrimSpace_eq_empty name).mpr h1), if_pos h1]
  · rw [if_neg (fun h => h1 ((TrimSpace_eq_empty name).mp h)), if_neg h1]
    by_cases h2 : ∃ c ∈ (TrimSpace name).data, c ∈ forbiddenChars
    · rw [if_pos ((ContainsAny_forbidden _).mpr h2), if_pos h2]
    · rw [if_neg (fun h => h2 ((ContainsAny_forbidden _).mp h)), if_neg h2]
      have hsep : '/' ∉ (TrimSpace name).data := by
        intro hm
        exact h2 ⟨'/', hm, by decide⟩
      rw [stem_of_no_sep _ hsep]
      by_cases h3 : ToUpper (specStem (TrimSpace name)) ∈ reservedNames
      · rw [if_pos ((reserved_lookup _).mpr h3), if_pos h3]
      · rw [if_neg (fun h => h3 ((reserved_lookup _).mp h)), if_neg h3]

/-! ## Lemmas on the plan builder -/

theorem mapGet_mapSet {α : Type} (zero : α) (m : List (String × α)) (k key : String) (v : α) :
    mapGet zero (mapSet m k v) key = if key = k then v else mapGet zero m key := rfl

theorem tally_dupCount (steps : List RenameStep) (files : List String)
    (pv : List (String × String)) (dc : List (String × Nat)) (k : String) :
    mapGet 0 (buildPlan.tally steps files (pv, dc)).2 k =
      mapGet 0 dc k + duplicateCount files steps k := by
  induction files generalizing pv dc with
  | nil => simp [buildPlan.tally, duplicateCount]
  | cons p rest ih =>
    simp only [buildPlan.tally]
    rw [ih, mapGet_mapSet]
    simp only [duplicateCount, List.countP_cons, proposedName, beq_iff_eq]
    by_cases h : k = applyRenameSteps (Base p) steps
    · subst h
      simp
      omega
    · have h2 : ¬ applyRenameSteps (Base p) steps = k := fun e => h e.symm
      simp [h, h2]

theorem tally_preview (steps : List RenameStep) (files : List String)
    (pv : List (String × String)) (dc : List (String × Nat)) (p : String) (hp : p ∈ files) :
    mapGet "" (buildPlan.tally steps files (pv, dc)).1 (Base p) = proposedName steps p := by
  have gen : ∀ (files : List String) (pv : List (String × String)) (dc : List (String × Nat)),
      (p ∈ files ∨ mapGet "" pv (Base p) = proposedName steps p) →
      mapGet "" (buildPlan.tally steps files (pv, dc)).1 (Base p) = proposedName steps p := by
    intro files
    induction files with
    | nil =>
      intro pv dc h
      rcases h with h | h
      · simp at h
      · simpa [buildPlan.tally] using h
    | cons q rest ih =>
      intro pv dc h
      simp only [buildPlan.tally]
      apply ih
      by_cases hq : Base p = Base q
      · right
        rw [mapGet_mapSet, if_pos hq, proposedName, hq]
      · rcases h with h | h
        · rcases List.mem_cons.mp h with h | h
          · exact absurd (h ▸ rfl) hq
          · exact Or.inl h
        · right
          rw [mapGet_mapSet, if_neg hq]
          exact h
  exact gen files pv dc (Or.inl hp)

theorem classify_fst_indep [UnicodeTables] (statOk : String → Bool)
    (pv : List (String × String)) (dc : List (String × Nat)) (p : String)
    (s1 s2 : PlanSummary) :
    (buildPlan.classify statOk pv dc p s1).1 = (buildPlan.classify statOk pv dc p s2).1 := by
  unfold buildPlan.classify
  simp only []
  split_ifs <;> rfl

theorem loop_items [UnicodeTables] (statOk : String → Bool)
    (pv : List (String × String)) (dc : List (String × Nat)) (files : List String)
    (items : List RenamePlanItem) (sum : PlanSummary) :
    (buildPlan.loop statOk pv dc files (items, sum)).1 =
      items ++ files.map (fun p => (buildPlan.classify statOk pv dc p {}).1) := by
  induction files generalizing items sum with
  | nil => simp [buildPlan.loop]
  | cons p rest ih =>
    simp only [buildPlan.loop]
    rw [ih, List.map_cons, List.append_assoc, List.singleton_append,
      classify_fst_indep statOk pv dc p sum {}]

theorem classify_item [UnicodeTables] (statOk : String → Bool) (files : List String)
    (steps : List RenameStep) (p : String) (hp : p ∈ files) (sum : PlanSummary) :
    (buildPlan.classify statOk (buildPlan.tally steps files ([], [])).1
        (buildPlan.tally steps files ([], [])).2 p sum).1 =
      specItem statOk files steps p := by
  unfold buildPlan.classify
  simp only []
  rw [tally_preview steps files [] [] p hp, tally_dupCount]
  simp only [mapGet, Nat.zero_add, specItem, specStatusReason, gt_iff_lt]
  split_ifs <;> rfl

/-- The items of `buildPlan`: one per filtered path, in order, each the item
the specification assigns to that path. -/
theorem buildPlan_items [UnicodeTables] (statOk : String → Bool) (state : AppState) :
    (buildPlan statOk state).1 =
      state.filteredFiles.map (specItem statOk state.filteredFiles state.steps) := by
  unfold buildPlan
  simp only []
  rw [loop_items, List.nil_append]
  apply List.map_congr_left
  intro p hp
  exact classify_item statOk state.filteredFiles state.steps p hp {}

/-! ## C1: priority of the classification rules -/

/-- C1. For every filtered list, step sequence and existence predicate, the
items of `buildPlan` stand one to one, in order, against the filtered paths,
and each carries the status and reason of the first rule that applies:
unchanged, then invalid (reason "invalid: " followed by the validator's
reason), then duplicate proposed name in the batch, then target existing on
disk, else "ok" with the empty reason.  In particular an unchanged name is
skip/"unchanged" whatever else holds of it, and an invalid changed name is
skip/"invalid: ..." whatever its duplicate count and whatever is on disk. -/
theorem buildPlan_priority [UnicodeTables] (statOk : String → Bool) (state : AppState) :
    List.Forall₂
        (fun p it => (it.Status, it.Reason) =
          specStatusReason statOk state.filteredFiles state.steps p)
        state.filteredFiles (buildPlan statOk state).1
    ∧ List.Forall₂
        (fun p it => applyRenameSteps (Base p) state.steps = Base p →
          it.Status = "skip" ∧ it.Reason = "unchanged")
        state.filteredFiles (buildPlan statOk state).1
    ∧ List.Forall₂
        (fun p it => applyRenameSteps (Base p) state.steps ≠ Base p →
          invalidNameReason (applyRenameSteps (Base p) state.steps) ≠ "" →
          it.Status = "skip" ∧
          it.Reason = "invalid: " ++ invalidNameReason (applyRenameSteps (Base p) state.steps))
        state.filteredFiles (buildPlan statOk state).1 := by
  rw [buildPlan_items]
  simp only [List.forall₂_map_right_iff, List.forall₂_same]
  refine ⟨fun p _ => rfl, fun p _ h => ?_, fun p _ h1 h2 => ?_⟩
  · simp [specItem, specStatusReason, proposedName, h]
  · simp [specItem, specStatusReason, proposedName, h1, h2]

/-! ## C3: the pipeline as a fold -/

theorem Ext_eq_specPathExt (s : String) : Ext s = specPathExt s := by
  rw [string_eq_iff, Ext_data]
  unfold specPathExt specExt
  split_ifs <;> rfl

theorem stem_eq_specPathStem (s : String) : TrimSuffix s (Ext s) = specPathStem s := by
  rw [string_eq_iff, TrimSuffix_of_suffix _ _ (Ext_suffix s), Ext_data]
  unfold specPathStem specExt specStem
  simp only []
  split_ifs with h
  · simp
  · have e := lastDotStem_append_suffix s.data
    have hl : s.data.length - (lastDotSuffix s.data).length = (lastDotStem s.data).length := by
      have := congrArg List.length e
      rw [List.length_append] at this
      omega
    calc s.data.take (s.data.length - (lastDotSuffix s.data).length)
        = (lastDotStem s.data ++ lastDotSuffix s.data).take (lastDotStem s.data).length := by
          rw [e, hl]
      _ = lastDotStem s.data := by simp

theorem body_eq_specStepWith (name : String) (s : RenameStep) :
    applyRenameSteps.body name s = specStepWith specPathStem specPathExt name s := by
  unfold applyRenameSteps.body specStepWith withLeadingDot
  simp only [stem_eq_specPathStem]
  simp only [Ext_eq_specPathExt]
  split_ifs <;> first | rfl | simp_all

theorem loop_eq_foldl (f : String → RenameStep → String)
    (hf : ∀ n s, applyRenameSteps.body n s = f n s) (n : String) (steps : List RenameStep) :
    applyRenameSteps.loop n steps = steps.foldl f n := by
  induction steps generalizing n with
  | nil => rfl
  | cons s rest ih => simp only [applyRenameSteps.loop, List.foldl_cons, ih, hf]

/-- C3, counterexample. With the extension read as the suffix from the last
dot, the fold of the single-step transform differs from the code on the name
"x" under prepend "a.b/" followed by append "Z": the code gives "a.b/xZ", the
fold gives "aZ.b/x". -/
theorem applyRenameSteps_fold_lastDot_fails :
    applyRenameSteps "x" [⟨1, OpPrepend, "a.b/", ""⟩, ⟨2, OpAppend, "Z", ""⟩] = "a.b/xZ" ∧
    TrimSpace (List.foldl specStep "x" [⟨1, OpPrepend, "a.b/", ""⟩, ⟨2, OpAppend, "Z", ""⟩])
      = "aZ.b/x" ∧
    applyRenameSteps "x" [⟨1, OpPrepend, "a.b/", ""⟩, ⟨2, OpAppend, "Z", ""⟩] ≠
      TrimSpace (List.foldl specStep "x" [⟨1, OpPrepend, "a.b/", ""⟩, ⟨2, OpAppend, "Z", ""⟩]) := by
  decide

/-- C3, amended. For every name and step sequence, the empty sequence returns
the name as it is (no trimming) and a non-empty sequence returns the trimmed
left fold of the single-step transform, where the extension is the suffix from
the last dot unless a path separator follows that dot (then it is empty and the
stem is the whole name). -/
theorem applyRenameSteps_fold (n : String) (s : List RenameStep) :
    applyRenameSteps n s =
      if s = [] then n
      else TrimSpace (List.foldl (specStepWith specPathStem specPathExt) n s) := by
  unfold applyRenameSteps
  rw [loop_eq_foldl _ body_eq_specStepWith]
  cases s with
  | nil => simp
  | cons a l => simp

/-! ## C4, C5: combination of the filter rules -/

theorem ruleMatch_eq [UnicodeTables] (filename : String) (cs : Bool) (r : FilterRule) :
    ruleMatch filename (if !cs then ToLower filename else filename) cs r =
      (decide (TrimSpace r.Value = "") || matchesUnderMode filename cs r) := by
  by_cases hv : TrimSpace r.Value = ""
  · simp only [ruleMatch, hv, if_true, decide_True, Bool.true_or]
  · have hd : decide (TrimSpace r.Value = "") = false := decide_eq_false hv
    rw [hd, Bool.false_or]
    unfold ruleMatch matchesUnderMode foldCase withLeadingDot
    simp only [if_neg hv]
    by_cases h1 : r.Mode = "contains"
    · have n2 : ¬ r.Mode = "starts with" := by rw [h1]; decide
      have n3 : ¬ r.Mode = "ends with" := by rw [h1]; decide
      have n4 : ¬ r.Mode = "extension" := by rw [h1]; decide
      simp only [if_pos h1, if_neg n2, if_neg n3, if_neg n4]
      cases cs <;> rfl
    · simp only [if_neg h1]
      by_cases h2 : r.Mode = "starts with"
      · simp only [if_pos h2]
        cases cs <;> rfl
      · simp only [if_neg h2]
        by_cases h3 : r.Mode = "ends with"
        · simp only [if_pos h3]
          cases cs <;> rfl
        · simp only [if_neg h3]
          by_cases h4 : r.Mode = "extension"
          · simp only [if_pos h4]
            cases cs
            · by_cases hp : HasPrefix (ToLower (TrimSpace r.Value)) "." = true
              · simp [hp]
              · simp [hp]
            · by_cases hp : HasPrefix (TrimSpace r.Value) "." = true
              · simp [hp]
              · simp [hp]
          · simp only [if_neg h4]
            cases cs <;> rfl

theorem allLoop_eq_all (m : FilterRule → Bool) (rules : List FilterRule) :
    matchesRules.allLoop m rules = rules.all m := by
  induction rules with
  | nil => rfl
  | cons r rs ih =>
    simp only [matchesRules.allLoop, List.all_cons, ih]
    cases m r <;> simp

theorem anyLoop_eq_any (m : FilterRule → Bool) (rules : List FilterRule) :
    matchesRules.anyLoop m rules = rules.any m := by
  induction rules with
  | nil => rfl
  | cons r rs ih =>
    simp only [matchesRules.anyLoop, List.any_cons, ih]
    cases m r <;> simp

theorem matchesRules_eq [UnicodeTables] (filename : String) (rules : List FilterRule)
    (matchAll cs : Bool) :
    matchesRules filename rules matchAll cs =
      if rules = [] then true
      else if matchAll then
        rules.all (fun r => decide (TrimSpace r.Value = "") || matchesUnderMode filename cs r)
      else
        rules.any (fun r => decide (TrimSpace r.Value = "") || matchesUnderMode filename cs r) := by
  unfold matchesRules
  simp only [allLoop_eq_all, anyLoop_eq_any]
  have hf : ruleMatch filename (if !cs then ToLower filename else filename) cs =
      fun r => decide (TrimSpace r.Value = "") || matchesUnderMode filename cs r :=
    funext (ruleMatch_eq filename cs)
  rw [hf]
  cases rules with
  | nil => simp
  | cons a l => simp

/-- C4. With `matchAll` set, `matchesRules` is true exactly when every rule
whose trimmed value is not empty matches the name under its mode; so the empty
rule list, and a rule list whose values are all empty or whitespace, match
every name. -/
theorem matchesRules_all [UnicodeTables] (filename : String) (rules : List FilterRule)
    (cs : Bool) :
    (matchesRules filename rules true cs = true ↔
      ∀ r ∈ rules, TrimSpace r.Value ≠ "" → matchesUnderMode filename cs r = true)
    ∧ matchesRules filename [] true cs = true
    ∧ ((∀ r ∈ rules, TrimSpace r.Value = "") → matchesRules filename rules true cs = true) := by
  have main : matchesRules filename rules true cs = true ↔
      ∀ r ∈ rules, TrimSpace r.Value ≠ "" → matchesUnderMode filename cs r = true := by
    rw [matchesRules_eq]
    cases rules with
    | nil => simp
    | cons a l =>
      simp only [if_neg (List.cons_ne_nil a l), if_true, List.all_eq_true, Bool.or_eq_true,
        decide_eq_true_eq]
      constructor
      · intro h r hr hne
        rcases h r hr with h1 | h1
        · exact absurd h1 hne
        · exact h1
      · intro h r hr
        by_cases he : TrimSpace r.Value = ""
        · exact Or.inl he
        · exact Or.inr (h r hr he)
  refine ⟨main, by simp [matchesRules], fun hall => main.mpr fun r hr hne => absurd (hall r hr) hne⟩

/-- C4, witness: a rule list with only a blank value matches "a.txt". -/
theorem matchesRules_all_witness :
    (∀ r ∈ [(⟨1, "contains", "  "⟩ : FilterRule)], TrimSpace r.Value = "") ∧
    @matchesRules asciiTables "a.txt" [⟨1, "contains", "  "⟩] true false = true :=
  ⟨by decide, (@matchesRules_all asciiTables "a.txt" [⟨1, "contains", "  "⟩] false).2.2 (by decide)⟩

/-- C5, counterexample. Without `matchAll`, the rules "contains zzz" and
"contains" with an empty value accept "a.txt", although no rule with a
non-empty value matches it. -/
theorem matchesRules_any_blank_rule :
    ¬ (@matchesRules asciiTables "a.txt" [⟨1, "contains", "zzz"⟩, ⟨2, "contains", ""⟩]
          false false = true ↔
        ∃ r ∈ [(⟨1, "contains", "zzz"⟩ : FilterRule), ⟨2, "contains", ""⟩],
          TrimSpace r.Value ≠ "" ∧ @matchesUnderMode asciiTables "a.txt" false r = true) := by
  decide

/-- C5, amended. For a non-empty rule list and without `matchAll`,
`matchesRules` is true exactly when at least one rule has an empty trimmed
value or matches the name under its mode. -/
theorem matchesRules_any [UnicodeTables] (filename : String) (rules : List FilterRule)
    (cs : Bool) (hne : rules ≠ []) :
    matchesRules filename rules false cs = true ↔
      ∃ r ∈ rules, TrimSpace r.Value = "" ∨ matchesUnderMode filename cs r = true := by
  rw [matchesRules_eq, if_neg hne]
  simp only [Bool.false_eq_true, if_false, List.any_eq_true, Bool.or_eq_true, decide_eq_true_eq]

/-- C5, witness of the amended statement on the rules "contains zzz" and
"extension txt". -/
theorem matchesRules_any_witness :
    @matchesRules asciiTables "a.txt" [⟨1, "contains", "zzz"⟩, ⟨2, "extension", "TXT"⟩]
        false false = true ↔
      ∃ r ∈ [(⟨1, "contains", "zzz"⟩ : FilterRule), ⟨2, "extension", "TXT"⟩],
        TrimSpace r.Value = "" ∨ @matchesUnderMode asciiTables "a.txt" false r = true :=
  @matchesRules_any asciiTables "a.txt" [⟨1, "contains", "zzz"⟩, ⟨2, "extension", "TXT"⟩] false
    (by decide)

/-! ## C6: the filtered list -/

theorem leChars_total (a b : List Char) : leChars a b = true ∨ leChars b a = true := by
  induction a generalizing b with
  | nil => exact Or.inl rfl
  | cons x xs ih =>
    cases b with
    | nil => exact Or.inr rfl
    | cons y ys =>
      simp only [leChars, Bool.or_eq_true, Bool.and_eq_true, decide_eq_true_eq, beq_iff_eq]
      rcases Nat.lt_trichotomy x.toNat y.toNat with h | h | h
      · exact Or.inl (Or.inl h)
      · rcases ih ys with h2 | h2
        · exact Or.inl (Or.inr ⟨h, h2⟩)
        · exact Or.inr (Or.inr ⟨h.symm, h2⟩)
      · exact Or.inr (Or.inl h)

theorem leChars_trans (a b c : List Char) (hab : leChars a b = true) (hbc : leChars b c = true) :
    leChars a c = true := by
  induction a generalizing b c with
  | nil => rfl
  | cons x xs ih =>
    cases b with
    | nil => simp [leChars] at hab
    | cons y ys =>
      cases c with
      | nil => simp [leChars] at hbc
      | cons z zs =>
        simp only [leChars, Bool.or_eq_true, Bool.and_eq_true, decide_eq_true_eq,
          beq_iff_eq] at hab hbc ⊢
        rcases hab with h1 | ⟨h1, h1'⟩
        · rcases hbc with h2 | ⟨h2, _⟩
          · exact Or.inl (Nat.lt_trans h1 h2)
          · exact Or.inl (h2 ▸ h1)
        · rcases hbc with h2 | ⟨h2, h2'⟩
          · exact Or.inl (h1 ▸ h2)
          · exact Or.inr ⟨h1.trans h2, ih ys zs h1' h2'⟩

theorem leChars_antisymm (a b : List Char) (hab : leChars a b = true) (hba : leChars b a = true) :
    a = b := by
  induction a generalizing b with
  | nil =>
    cases b with
    | nil => rfl
    | cons y ys => simp [leChars] at hba
  | cons x xs ih =>
    cases b with
    | nil => simp [leChars] at hab
    | cons y ys =>
      simp only [leChars, Bool.or_eq_true, Bool.and_eq_true, decide_eq_true_eq,
        beq_iff_eq] at hab hba
      have hxy : x.toNat = y.toNat := by
        rcases hab with h1 | ⟨h1, _⟩
        · rcases hba with h2 | ⟨h2, _⟩
          · omega
          · omega
        · exact h1
      have htl : xs = ys := by
        rcases hab with h1 | ⟨_, h1⟩
        · omega
        · rcases hba with h2 | ⟨_, h2⟩
          · omega
          · exact ih ys h1 h2
      have hc : x = y := by
        apply Char.ext
        apply UInt32.ext
        exact hxy
      rw [hc, htl]

theorem strLe_isTotal : IsTotal String strLe :=
  ⟨fun a b => leChars_total a.data b.data⟩

theorem strLe_isTrans : IsTrans String strLe :=
  ⟨fun a b c hab hbc => leChars_trans a.data b.data c.data hab hbc⟩

theorem strLe_isAntisymm : IsAntisymm String strLe :=
  ⟨fun a b hab hba => String.ext (leChars_antisymm a.data b.data hab hba)⟩

theorem sortStrings_sorted (l : List String) : List.Sorted strLe (sortStrings l) :=
  @List.sorted_insertionSort String strLe _ strLe_isTotal strLe_isTrans l

theorem sortStrings_perm (l : List String) : List.Perm (sortStrings l) l :=
  List.perm_insertionSort strLe l

/-- The sorted arrangement is unique: whatever method `sort.Strings` uses, its
result is the list `sortStrings` computes. -/
theorem sortStrings_unique (l l' : List String) (hs : List.Sorted strLe l') (hp : l'.Perm l) :
    l' = sortStrings l :=
  @List.eq_of_perm_of_sorted String strLe strLe_isAntisymm l' (sortStrings l)
    (hp.trans (sortStrings_perm l).symm) hs (sortStrings_sorted l)

theorem filterLoop_eq [UnicodeTables] (rules : List FilterRule) (matchAll cs : Bool)
    (all out : List String) :
    filterFilesMulti.loop rules matchAll cs all out =
      out ++ all.filter (fun full => matchesRules (Base full) rules matchAll cs) := by
  induction all generalizing out with
  | nil => simp [filterFilesMulti.loop]
  | cons p rest ih =>
    simp only [filterFilesMulti.loop]
    by_cases h : matchesRules (Base p) rules matchAll cs = true
    · simp [h, ih]
    · simp [h, ih]

/-- C6. For every list of paths, rule list and flags, `filterFilesMulti`
returns a list sorted in ascending lexicographic order that is a permutation of
the input paths whose base name satisfies `matchesRules`, multiplicity
included: nothing is added, dropped or altered. -/
theorem filterFilesMulti_sorted_perm [UnicodeTables] (all : List String)
    (rules : List FilterRule) (matchAll cs : Bool) :
    List.Sorted strLe (filterFilesMulti all rules matchAll cs) ∧
    List.Perm (filterFilesMulti all rules matchAll cs)
      (all.filter (fun full => matchesRules (Base full) rules matchAll cs)) := by
  unfold filterFilesMulti
  rw [filterLoop_eq, List.nil_append]
  exact ⟨sortStrings_sorted _, sortStrings_perm _⟩

/-! ## C7: the example scenario -/

/-- C7, counterexample. In the scenario the literal "the" of "the_hobbit.mkv"
is replaced, so the proposed name is "The_hobbit.mp4" and not "the_hobbit.mp4". -/
theorem scenario_hobbit_not_lowercase :
    applyRenameSteps "the_hobbit.mkv" scenarioSteps = "The_hobbit.mp4" ∧
    applyRenameSteps "the_hobbit.mkv" scenarioSteps ≠ "the_hobbit.mp4" := by
  decide

/-- C7, amended. In the scenario, under either setting of case sensitivity,
`filterFilesMulti` selects the two .mkv files, `applyRenameSteps` proposes
"The Whale.mp4" and "The_hobbit.mp4", and with no target on disk `buildPlan`
gives both items status "ok" and counts two files, both ok. -/
theorem scenario_plan :
    ∀ cs : Bool,
      @filterFilesMulti asciiTables scenarioFiles scenarioRules true cs =
        ["/films/The Whale.mkv", "/films/the_hobbit.mkv"] ∧
      applyRenameSteps "The Whale.mkv" scenarioSteps = "The Whale.mp4" ∧
      applyRenameSteps "the_hobbit.mkv" scenarioSteps = "The_hobbit.mp4" ∧
      (@buildPlan asciiTables (fun _ => false) (scenarioState cs)).1 =
        [⟨"/films/The Whale.mkv", "/films/The Whale.mp4", "The Whale.mkv", "The Whale.mp4",
            "ok", ""⟩,
         ⟨"/films/the_hobbit.mkv", "/films/The_hobbit.mp4", "the_hobbit.mkv", "The_hobbit.mp4",
            "ok", ""⟩] ∧
      (@buildPlan asciiTables (fun _ => false) (scenarioState cs)).2 =
        { Total := 2, OkCount := 2 } := by
  decide

/-! ## C8: duplicate proposed names -/

theorem countP_two_positions {α : Type} (P : α → Bool) (l : List α) (i j : Nat) (a b : α)
    (hij : i < j) (hi : l[i]? = some a) (hj : l[j]? = some b)
    (ha : P a = true) (hb : P b = true) : 1 < l.countP P := by
  induction l generalizing i j with
  | nil => simp at hi
  | cons x xs ih =>
    cases j with
    | zero => omega
    | succ j' =>
      simp only [List.getElem?_cons_succ] at hj
      cases i with
      | zero =>
        simp only [List.getElem?_cons_zero, Option.some.injEq] at hi
        subst hi
        have hmem : b ∈ xs := List.mem_iff_getElem?.mpr ⟨j', hj⟩
        have hpos : 0 < xs.countP P := List.countP_pos_iff.mpr ⟨b, hmem, hb⟩
        rw [List.countP_cons, if_pos ha]
        omega
      | succ i' =>
        simp only [List.getElem?_cons_succ] at hi
        have := ih i' j' (by omega) hi hj
        rw [List.countP_cons]
        omega

theorem countP_le_one_of_alone {α : Type} (P : α → Bool) (l : List α) (i : Nat)
    (h : ∀ j q, j ≠ i → l[j]? = some q → P q = false) : l.countP P ≤ 1 := by
  induction l generalizing i with
  | nil => simp
  | cons x xs ih =>
    rw [List.countP_cons]
    cases i with
    | zero =>
      have hz : xs.countP P = 0 := by
        rw [List.countP_eq_zero]
        intro q hq
        obtain ⟨j, hj⟩ := List.getElem?_of_mem hq
        have := h (j + 1) q (by omega) (by simpa using hj)
        simp [this]
      rw [hz]
      split_ifs <;> omega
    | succ i' =>
      have hx : P x = false := h 0 x (by omega) (by simp)
      have := ih i' (fun j q hne hq => h (j + 1) q (by omega) (by simpa using hq))
      simp only [hx, Bool.false_eq_true, if_false]
      omega

theorem invalid_ne_duplicate (r : String) :
    "invalid: " ++ r ≠ "conflict: duplicate preview name" := by
  intro h
  have h2 := congrArg String.data h
  rw [String.data_append] at h2
  have h3 : ("invalid: " : String).data = 'i' :: "nvalid: ".data := by decide
  have h4 : ("conflict: duplicate preview name" : String).data =
      'c' :: "onflict: duplicate preview name".data := by decide
  rw [h3, h4, List.cons_append] at h2
  exact absurd (List.cons.inj h2).1 (by decide)

/-- C8, counterexample. "a.txt" and "b.txt" under replace "b" by "a" have the
same proposed name "a.txt", yet the item of "a.txt" is skip/"unchanged"; only
the item of "b.txt" carries the duplicate reason. -/
theorem duplicate_yields_to_unchanged :
    proposedName collideOntoUnchanged "/d/a.txt" = proposedName collideOntoUnchanged "/d/b.txt" ∧
    (@buildPlan asciiTables (fun _ => false)
        { filteredFiles := duplicateFiles, steps := collideOntoUnchanged }).1.map
      (fun it => (it.Status, it.Reason)) =
      [("skip", "unchanged"), ("skip", "conflict: duplicate preview name")] := by
  decide

/-- C8, amended. Whenever two distinct filtered files have the same proposed
name, the item of each of them whose proposed name differs from its own base
name and passes the validator is skip/"conflict: duplicate preview name"; and a
file whose proposed name is shared by no other file of the filtered batch never
receives that reason. -/
theorem buildPlan_duplicate_rule [UnicodeTables] (statOk : String → Bool) (state : AppState) :
    (∀ (i j : Nat) (p q : String), i ≠ j → state.filteredFiles[i]? = some p → state.filteredFiles[j]? = some q →
        proposedName state.steps p = proposedName state.steps q →
        proposedName state.steps p ≠ Base p →
        invalidNameReason (proposedName state.steps p) = "" →
        ∃ it : RenamePlanItem, (buildPlan statOk state).1[i]? = some it ∧ it.Status = "skip" ∧
          it.Reason = "conflict: duplicate preview name")
    ∧ (∀ (i : Nat) (p : String) (it : RenamePlanItem), state.filteredFiles[i]? = some p → (buildPlan statOk state).1[i]? = some it →
        (∀ (j : Nat) (q : String), j ≠ i → state.filteredFiles[j]? = some q →
          proposedName state.steps q ≠ proposedName state.steps p) →
        it.Reason ≠ "conflict: duplicate preview name") := by
  rw [buildPlan_items]
  constructor
  · intro i j p q hij hi hj hsame hch hval
    refine ⟨specItem statOk state.filteredFiles state.steps p, by simp [hi], ?_⟩
    have hdup : 1 < duplicateCount state.filteredFiles state.steps (proposedName state.steps p) := by
      unfold duplicateCount
      rcases Nat.lt_or_gt_of_ne hij with h | h
      · exact countP_two_positions _ _ i j p q h hi hj (by simp) (by simp [hsame])
      · exact countP_two_positions _ _ j i q p h hj hi (by simp [hsame]) (by simp)
    simp [specItem, specStatusReason, hch, hval, hdup]
  · intro i p it hi hit halone
    simp only [List.getElem?_map, hi, Option.map_some', Option.some.injEq] at hit
    subst hit
    have hle : duplicateCount state.filteredFiles state.steps (proposedName state.steps p) ≤ 1 := by
      unfold duplicateCount
      apply countP_le_one_of_alone _ _ i
      intro j q hne hq
      simpa using halone j q hne hq
    have hnot : ¬ 1 < duplicateCount state.filteredFiles state.steps
        (proposedName state.steps p) := by omega
    simp only [specItem, specStatusReason, hnot, if_false]
    split_ifs
    · decide
    · exact invalid_ne_duplicate _
    · decide
    · decide

/-- C8, witness: "a.txt" and "b.txt" both sent to "c.txt" are both flagged;
here the first of them. -/
theorem buildPlan_duplicate_rule_witness :
    ∃ it : RenamePlanItem, (@buildPlan asciiTables (fun _ => false)
        { filteredFiles := duplicateFiles, steps := collideBoth }).1[0]? = some it ∧
      it.Status = "skip" ∧ it.Reason = "conflict: duplicate preview name" :=
  (@buildPlan_duplicate_rule asciiTables (fun _ => false)
      { filteredFiles := duplicateFiles, steps := collideBoth }).1
    0 1 "/d/a.txt" "/d/b.txt" (by decide) (by decide) (by decide) (by decide) (by decide)
    (by decide)

/-! ## C9: steps with an empty operand -/

theorem body_of_empty_operand (name : String) (st : RenameStep) (h : isEmptyOperandStep st) :
    applyRenameSteps.body name st = name := by
  obtain ⟨hop, hA⟩ := h
  unfold applyRenameSteps.body
  rcases hop with hop | hop
  · simp [hop, hA]
  · by_cases h1 : st.Op = OpRemoveText
    · simp [h1, hA]
    · simp [h1, hop, hA]

theorem loop_append (n : String) (pre post : List RenameStep) :
    applyRenameSteps.loop n (pre ++ post) =
      applyRenameSteps.loop (applyRenameSteps.loop n pre) post := by
  induction pre generalizing n with
  | nil => rfl
  | cons s rest ih =>
    rw [List.cons_append]
    simp only [applyRenameSteps.loop]
    exact ih _

theorem loop_insert_empty_operand (n : String) (pre post : List RenameStep) (st : RenameStep)
    (h : isEmptyOperandStep st) :
    applyRenameSteps.loop n (pre ++ st :: post) = applyRenameSteps.loop n (pre ++ post) := by
  rw [loop_append, loop_append]
  simp only [applyRenameSteps.loop, body_of_empty_operand _ st h]

/-- C9, counterexample. On the name " a" and the empty step sequence, putting
in a remove-text step with an empty operand changes the result: the empty
sequence returns " a" untouched, the one-step sequence returns the trimmed
"a". -/
theorem empty_operand_step_trims :
    isEmptyOperandStep ⟨1, OpRemoveText, "", ""⟩ ∧
    applyRenameSteps " a" ([] ++ ⟨1, OpRemoveText, "", ""⟩ :: []) = "a" ∧
    applyRenameSteps " a" ([] ++ []) = " a" ∧
    applyRenameSteps " a" ([] ++ ⟨1, OpRemoveText, "", ""⟩ :: []) ≠
      applyRenameSteps " a" ([] ++ []) := by
  refine ⟨⟨Or.inl rfl, rfl⟩, ?_, ?_, ?_⟩ <;> decide

/-- C9, amended. Putting a remove-text or replace-text step with an empty
operand A into a step sequence at any position leaves the result of a non-empty
sequence unchanged; put into the empty sequence, it gives the trimmed name
(the empty sequence itself returns the name untrimmed). -/
theorem applyRenameSteps_insert_empty_operand (n : String) (pre post : List RenameStep)
    (st : RenameStep) (h : isEmptyOperandStep st) :
    applyRenameSteps n (pre ++ st :: post) =
      if pre ++ post = [] then TrimSpace n else applyRenameSteps n (pre ++ post) := by
  unfold applyRenameSteps
  have hlen : ¬ (pre ++ st :: post).length = 0 := by simp
  rw [if_neg hlen, loop_insert_empty_operand n pre post st h]
  by_cases he : pre ++ post = []
  · rw [if_pos he, he]
    rfl
  · have hl : ¬ (pre ++ post).length = 0 := fun h0 => he (List.length_eq_zero.mp h0)
    rw [if_neg he, if_neg hl]

/-- C9, witness: the no-op step put between two steps of the example scenario. -/
theorem applyRenameSteps_insert_empty_operand_witness :
    applyRenameSteps "the_hobbit.mkv"
        ([⟨1, OpReplaceText, "the", "The"⟩] ++ ⟨3, OpReplaceText, "", "x"⟩ ::
          [⟨2, OpChangeExt, "mp4", ""⟩]) =
      if [(⟨1, OpReplaceText, "the", "The"⟩ : RenameStep)] ++ [⟨2, OpChangeExt, "mp4", ""⟩] = []
      then TrimSpace "the_hobbit.mkv"
      else applyRenameSteps "the_hobbit.mkv"
        ([⟨1, OpReplaceText, "the", "The"⟩] ++ [⟨2, OpChangeExt, "mp4", ""⟩]) :=
  applyRenameSteps_insert_empty_operand "the_hobbit.mkv" [⟨1, OpReplaceText, "the", "The"⟩]
    [⟨2, OpChangeExt, "mp4", ""⟩] ⟨3, OpReplaceText, "", "x"⟩ ⟨Or.inr rfl, rfl⟩

/-! ## C10: change of extension -/

/-- C10. For every base name `n` (a name without path separator) and operand
`A`, the pipeline made of the single step change-extension(A) returns the
trimmed stem of `n` when `A` is empty after trimming, and otherwise the trimmed
stem followed by the trimmed `A` with a leading dot added if missing; so
"a.txt" with an empty operand gives "a", and the operands "mp4" and ".mp4" give
the same result. -/
theorem applyRenameSteps_changeExt (n A B : String) (id : Int) (hbase : '/' ∉ n.data) :
    applyRenameSteps n [⟨id, OpChangeExt, A, B⟩] =
        (if TrimSpace A = "" then TrimSpace (specStem n)
         else TrimSpace (specStem n ++ withLeadingDot (TrimSpace A)))
    ∧ applyRenameSteps "a.txt" [⟨id, OpChangeExt, "", B⟩] = "a"
    ∧ applyRenameSteps n [⟨id, OpChangeExt, "mp4", B⟩] =
        applyRenameSteps n [⟨id, OpChangeExt, ".mp4", B⟩] := by
  have main : ∀ A' : String, applyRenameSteps n [⟨id, OpChangeExt, A', B⟩] =
      (if TrimSpace A' = "" then TrimSpace (specStem n)
       else TrimSpace (specStem n ++ withLeadingDot (TrimSpace A'))) := by
    intro A'
    have hop1 : ¬ OpChangeExt = OpRemoveText := by decide
    have hop2 : ¬ OpChangeExt = OpReplaceText := by decide
    have hop3 : ¬ (OpChangeExt = OpInsertBeforeExt ∨ OpChangeExt = OpAppend) := by decide
    have hop4 : ¬ OpChangeExt = OpPrepend := by decide
    have hstem : specPathStem n = specStem n := by
      rw [← stem_eq_specPathStem, stem_of_no_sep n hbase]
    simp only [applyRenameSteps, List.length_singleton, one_ne_zero, if_false,
      applyRenameSteps.loop, body_eq_specStepWith, specStepWith, if_neg hop1, if_neg hop2,
      if_neg hop3, if_neg hop4, if_true, hstem]
    split_ifs <;> rfl
  refine ⟨main A, ?_, ?_⟩
  · have e := (show '/' ∉ ("a.txt" : String).data by decide)
    have hop1 : ¬ OpChangeExt = OpRemoveText := by decide
    have hop2 : ¬ OpChangeExt = OpReplaceText := by decide
    have hop3 : ¬ (OpChangeExt = OpInsertBeforeExt ∨ OpChangeExt = OpAppend) := by decide
    have hop4 : ¬ OpChangeExt = OpPrepend := by decide
    simp only [applyRenameSteps, List.length_singleton, one_ne_zero, if_false,
      applyRenameSteps.loop, body_eq_specStepWith, specStepWith, if_neg hop1, if_neg hop2,
      if_neg hop3, if_neg hop4, if_true]
    decide
  · rw [main "mp4", main ".mp4"]
    have h1 : TrimSpace "mp4" = "mp4" := by decide
    have h2 : TrimSpace ".mp4" = ".mp4" := by decide
    have h3 : withLeadingDot "mp4" = ".mp4" := by decide
    have h4 : withLeadingDot ".mp4" = ".mp4" := by decide
    have h5 : ¬ ("mp4" : String) = "" := by decide
    have h6 : ¬ (".mp4" : String) = "" := by decide
    rw [h1, h2, h3, h4, if_neg h5, if_neg h6]

/-- C10, witness on the base name "movie.mkv" with the operand " mp4 ". -/
theorem applyRenameSteps_changeExt_witness :
    '/' ∉ ("movie.mkv" : String).data ∧
    applyRenameSteps "movie.mkv" [⟨1, OpChangeExt, " mp4 ", ""⟩] =
      (if TrimSpace " mp4 " = "" then TrimSpace (specStem "movie.mkv")
       else TrimSpace (specStem "movie.mkv" ++ withLeadingDot (TrimSpace " mp4 "))) :=
  ⟨by decide, (applyRenameSteps_changeExt "movie.mkv" " mp4 " "" 1 (by decide)).1⟩

/-! ## C11: execution of a plan -/

theorem applyRenames_loop_eq {σ : Type} (rename : σ → String → String → Option String × σ)
    (plan out : List RenamePlanItem) (w : σ) :
    applyRenames.loop rename plan (out, w) =
      (out ++ (renameResults rename plan w).1, (renameResults rename plan w).2) := by
  induction plan generalizing out w with
  | nil => simp [applyRenames.loop, renameResults]
  | cons it rest ih =>
    by_cases h : it.Status ≠ "ok"
    · simp only [applyRenames.loop, renameResults, if_pos h, ih, List.append_assoc,
        List.singleton_append]
    · simp only [applyRenames.loop, renameResults, if_neg h, ih, List.append_assoc,
        List.singleton_append]

theorem applyRenames_eq {σ : Type} (rename : σ → String → String → Option String × σ)
    (plan : List RenamePlanItem) (w : σ) :
    applyRenames rename plan w = renameResults rename plan w := by
  unfold applyRenames
  rw [applyRenames_loop_eq]
  rfl

theorem renameResults_logged {σ : Type} (rename : σ → String → String → Option String × σ)
    (plan : List RenamePlanItem) (w : σ) (log : List RenameCall) :
    renameResults (logged rename) plan (w, log) =
      ((renameResults rename plan w).1,
        ((renameResults rename plan w).2, log ++ callTrace rename plan w)) := by
  induction plan generalizing w log with
  | nil => simp [renameResults, callTrace]
  | cons it rest ih =>
    by_cases h : it.Status ≠ "ok"
    · simp only [renameResults, callTrace, if_pos h, ih]
    · simp only [renameResults, callTrace, if_neg h, logged, ih, List.append_assoc,
        List.singleton_append]

theorem record_specExecuted (it : RenamePlanItem) (err : Option String) :
    specExecuted it (applyRenames.record it err) err := by
  cases err with
  | none => simp [specExecuted, applyRenames.record]
  | some m => simp [specExecuted, applyRenames.record]

theorem record_not_ok (it : RenamePlanItem) (err : Option String) :
    (applyRenames.record it err).Status ≠ "ok" := by
  cases err with
  | none => simp only [applyRenames.record]; decide
  | some m => simp only [applyRenames.record]; decide

theorem renameResults_untouched {σ : Type} (rename : σ → String → String → Option String × σ)
    (plan : List RenamePlanItem) (w : σ) :
    List.Forall₂ (fun it o => it.Status ≠ "ok" → o = it) plan (renameResults rename plan w).1 := by
  induction plan generalizing w with
  | nil => simp [renameResults]
  | cons it rest ih =>
    by_cases h : it.Status ≠ "ok"
    · simp only [renameResults, if_pos h]
      exact List.Forall₂.cons (fun _ => rfl) (ih w)
    · simp only [renameResults, if_neg h]
      exact List.Forall₂.cons (fun h' => absurd h' h) (ih _)

theorem renameResults_not_ok {σ : Type} (rename : σ → String → String → Option String × σ)
    (plan : List RenamePlanItem) (w : σ) :
    ∀ o ∈ (renameResults rename plan w).1, o.Status ≠ "ok" := by
  induction plan generalizing w with
  | nil => simp [renameResults]
  | cons it rest ih =>
    by_cases h : it.Status ≠ "ok"
    · simp only [renameResults, if_pos h]
      intro o ho
      rcases List.mem_cons.mp ho with e | e
      · rw [e]; exact h
      · exact ih w o e
    · simp only [renameResults, if_neg h]
      intro o ho
      rcases List.mem_cons.mp ho with e | e
      · rw [e]; exact record_not_ok _ _
      · exact ih _ o e

theorem callTrace_paths {σ : Type} (rename : σ → String → String → Option String × σ)
    (plan : List RenamePlanItem) (w : σ) :
    (callTrace rename plan w).map (fun c => (c.1, c.2.1)) =
      (plan.filter (fun it => it.Status == "ok")).map (fun it => (it.OldPath, it.NewPath)) := by
  induction plan generalizing w with
  | nil => simp [callTrace]
  | cons it rest ih =>
    by_cases h : it.Status ≠ "ok"
    · have hb : (it.Status == "ok") = false := by simpa using h
      simp only [callTrace, if_pos h, List.filter_cons, hb, ih]
      simp
    · have hb : (it.Status == "ok") = true := by simpa using h
      simp only [callTrace, if_neg h, List.filter_cons, hb, if_true, List.map_cons]
      rw [ih]

theorem callTrace_outcomes {σ : Type} (rename : σ → String → String → Option String × σ)
    (plan : List RenamePlanItem) (w : σ) :
    List.Forall₂ (fun (pr : RenamePlanItem × RenamePlanItem) (c : RenameCall) =>
        c.1 = pr.1.OldPath ∧ c.2.1 = pr.1.NewPath ∧ specExecuted pr.1 pr.2 c.2.2)
      ((plan.zip (renameResults rename plan w).1).filter (fun pr => pr.1.Status == "ok"))
      (callTrace rename plan w) := by
  induction plan generalizing w with
  | nil => simp [callTrace, renameResults]
  | cons it rest ih =>
    by_cases h : it.Status ≠ "ok"
    · have hb : (it.Status == "ok") = false := by simpa using h
      simp only [callTrace, renameResults, if_pos h, List.zip_cons_cons, List.filter_cons, hb]
      exact ih w
    · have hb : (it.Status == "ok") = true := by simpa using h
      simp only [callTrace, renameResults, if_neg h, List.zip_cons_cons, List.filter_cons, hb]
      exact List.Forall₂.cons ⟨rfl, rfl, record_specExecuted _ _⟩ (ih _)

/-- C11. For every plan and every behaviour of `os.Rename` (success or failure
with a message, call by call), `applyRenames` returns a list of the same length
and order as the plan in which every item whose status is not "ok" comes back
identical; the rename calls made are exactly one call (OldPath, NewPath) per
"ok" item, in plan order, whatever the earlier calls returned; each "ok" item
comes back with its paths and names kept and with status "renamed" and empty
reason when its call succeeded, status "error" and the failure message as
reason when it failed; and no returned item has status "ok".  The calls are
read off a world that records them (`logged`), which returns the same items. -/
theorem applyRenames_spec {σ : Type} (rename : σ → String → String → Option String × σ)
    (plan : List RenamePlanItem) (w : σ) :
    (applyRenames (logged rename) plan (w, [])).1 = (applyRenames rename plan w).1
    ∧ (applyRenames rename plan w).1.length = plan.length
    ∧ List.Forall₂ (fun it o => it.Status ≠ "ok" → o = it) plan (applyRenames rename plan w).1
    ∧ (applyRenames (logged rename) plan (w, [])).2.2.map (fun c => (c.1, c.2.1)) =
        (plan.filter (fun it => it.Status == "ok")).map (fun it => (it.OldPath, it.NewPath))
    ∧ List.Forall₂
        (fun (pr : RenamePlanItem × RenamePlanItem) (c : RenameCall) =>
          c.1 = pr.1.OldPath ∧ c.2.1 = pr.1.NewPath ∧ specExecuted pr.1 pr.2 c.2.2)
        ((plan.zip (applyRenames rename plan w).1).filter (fun pr => pr.1.Status == "ok"))
        (applyRenames (logged rename) plan (w, [])).2.2
    ∧ ∀ o ∈ (applyRenames rename plan w).1, o.Status ≠ "ok" := by
  rw [applyRenames_eq, applyRenames_eq, renameResults_logged, List.nil_append]
  refine ⟨rfl, ?_, renameResults_untouched rename plan w, callTrace_paths rename plan w,
    callTrace_outcomes rename plan w, renameResults_not_ok rename plan w⟩
  exact (List.Forall₂.length_eq (renameResults_untouched rename plan w)).symm

/-! ## C12: statuses in the undo CSV -/

theorem writeUndoCSV_loop_eq (plan : List RenamePlanItem) (recs : List (List String)) :
    writeUndoCSV.loop plan recs = recs ++ plan.map undoRecord := by
  induction plan generalizing recs with
  | nil => simp [writeUndoCSV.loop]
  | cons it rest ih =>
    simp only [writeUndoCSV.loop, ih, List.map_cons, List.append_assoc, List.singleton_append,
      undoRecord]

theorem writeUndoCSV_eq (plan : List RenamePlanItem) :
    writeUndoCSV plan = undoHeader :: plan.map undoRecord := by
  simp [writeUndoCSV, writeUndoCSV_loop_eq]

theorem overwriteUndoCSV_eq (plan : List RenamePlanItem) :
    overwriteUndoCSV plan = undoHeader :: plan.map undoRecord := by
  simp [overwriteUndoCSV, writeUndoCSV_loop_eq]

/-- In a dry run with a saved log, the file keeps the records written before
the items are relabelled: the plan as `buildPlan` made it, "ok" statuses
included. -/
theorem applyButton_dryRun_csv [UnicodeTables] {σ : Type} (statOk : String → Bool)
    (rename : σ → String → String → Option String × σ) (state : AppState) (dlg : ApplyDialog)
    (w : σ) (path : String)
    (hstate : ¬ (state.folderPath = "" ∨ state.filteredFiles.length = 0))
    (hgo : dlg.proceed = true) (hlog : dlg.undoLog = true) (hsave : dlg.savePath = some path)
    (hdry : dlg.dryRun = true) :
    (applyButton statOk rename state dlg w).csv =
      some (undoHeader :: (buildPlan statOk state).1.map undoRecord) := by
  unfold applyButton
  simp only [if_neg hstate, hgo, hlog, hsave, hdry, Bool.not_true, Bool.false_eq_true, if_false,
    if_true, writeUndoCSV_eq]

/-- Without dry run and with a saved log, the file is rewritten from the
result of `applyRenames`. -/
theorem applyButton_apply_csv [UnicodeTables] {σ : Type} (statOk : String → Bool)
    (rename : σ → String → String → Option String × σ) (state : AppState) (dlg : ApplyDialog)
    (w : σ) (path : String)
    (hstate : ¬ (state.folderPath = "" ∨ state.filteredFiles.length = 0))
    (hgo : dlg.proceed = true) (hlog : dlg.undoLog = true) (hsave : dlg.savePath = some path)
    (hpath : path ≠ "") (hdry : dlg.dryRun = false) :
    (applyButton statOk rename state dlg w).csv =
      some (undoHeader ::
        (applyRenames rename (buildPlan statOk state).1 w).1.map undoRecord) := by
  unfold applyButton
  simp only [if_neg hstate, hgo, hlog, hsave, hdry, Bool.not_true, Bool.false_eq_true, if_false,
    if_true, overwriteUndoCSV_eq, ne_eq, hpath, not_false_eq_true]

/-- Without dry run, no record of the rewritten log has the status "ok". -/
theorem applyButton_apply_no_ok [UnicodeTables] {σ : Type} (statOk : String → Bool)
    (rename : σ → String → String → Option String × σ) (state : AppState) (w : σ) :
    ∀ o ∈ (applyRenames rename (buildPlan statOk state).1 w).1,
      (undoRecord o)[4]? ≠ some "ok" := by
  intro o ho
  have h := renameResults_not_ok rename (buildPlan statOk state).1 w o
    (by rw [← applyRenames_eq]; exact ho)
  simpa [undoRecord] using h

/-- C12, the code at the failing input. With dry run and undo log checked (as
`main` sets them), one file "a.txt" and the step append "_x", the saved undo
CSV holds the header and one record whose status column is "ok": the log is
written before the items are relabelled "dry-run" and is not rewritten. -/
theorem applyButton_dryRun_persists_ok :
    (@applyButton asciiTables Unit (fun _ => false) renameAlwaysOk undoExampleState
        undoExampleDialog ()).csv =
      some [["old_path", "new_path", "old_name", "new_name", "status", "reason"],
            ["/d/a.txt", "/d/a_x.txt", "a.txt", "a_x.txt", "ok", ""]]
    ∧ (@applyButton asciiTables Unit (fun _ => false) renameAlwaysOk undoExampleState
        undoExampleDialog ()).shown =
      [⟨"/d/a.txt", "/d/a_x.txt", "a.txt", "a_x.txt", "dry-run", ""⟩] := by
  decide

/-! ## C13: the summary of a plan -/

theorem mem_dropWhile_of_not {p : Char → Bool} {c : Char} {l : List Char}
    (hc : c ∈ l) (hp : p c = false) : c ∈ l.dropWhile p := by
  have h := List.takeWhile_append_dropWhile p l
  rw [← h] at hc
  rcases List.mem_append.mp hc with h1 | h1
  · have := List.mem_takeWhile_imp h1
    rw [hp] at this
    exact absurd this (by decide)
  · exact h1

theorem mem_trimSpaceChars {c : Char} {l : List Char} (hc : c ∈ l) (hs : IsSpace c = false) :
    c ∈ trimSpaceChars l := by
  unfold trimSpaceChars
  rw [List.mem_reverse]
  apply mem_dropWhile_of_not _ hs
  rw [List.mem_reverse]
  exact mem_dropWhile_of_not hc hs

theorem forbidden_not_space : ∀ c ∈ forbiddenChars, IsSpace c = false := by decide

/-- A name the validator accepts is not empty and holds none of the forbidden
characters, the path separator among them. -/
theorem valid_name_facts [UnicodeTables] (name : String) (h : invalidNameReason name = "") :
    name ≠ "" ∧ ∀ c ∈ name.data, c ∉ forbiddenChars := by
  unfold invalidNameReason at h
  simp only [] at h
  by_cases h1 : TrimSpace name = ""
  · rw [if_pos h1] at h
    exact absurd h (by decide)
  · rw [if_neg h1] at h
    by_cases h2 : ContainsAny (TrimSpace name) "<>:\"/\\|?*" = true
    · rw [if_pos h2] at h
      exact absurd h (by decide)
    · constructor
      · intro he
        apply h1
        rw [he]
        decide
      · intro c hc hf
        apply h2
        rw [ContainsAny_forbidden]
        exact ⟨c, mem_trimSpaceChars hc (forbidden_not_space c hf), hf⟩

/-- What status "ok" means for the item of a filtered path: none of the four
skip rules applies. -/
theorem specStatusReason_ok [UnicodeTables] (statOk : String → Bool) (files : List String)
    (steps : List RenameStep) (p : String)
    (h : (specStatusReason statOk files steps p).1 = "ok") :
    proposedName steps p ≠ Base p ∧ invalidNameReason (proposedName steps p) = "" ∧
    duplicateCount files steps (proposedName steps p) ≤ 1 ∧
    statOk (Join (Dir p) (proposedName steps p)) = false := by
  have e1 : ¬ ("skip" : String) = "ok" := by decide
  unfold specStatusReason at h
  by_cases h1 : proposedName steps p = Base p
  · rw [if_pos h1] at h
    exact absurd h e1
  · rw [if_neg h1] at h
    by_cases h2 : invalidNameReason (proposedName steps p) ≠ ""
    · rw [if_pos h2] at h
      exact absurd h e1
    · rw [if_neg h2] at h
      by_cases h3 : 1 < duplicateCount files steps (proposedName steps p)
      · rw [if_pos h3] at h
        exact absurd h e1
      · rw [if_neg h3] at h
        by_cases h4 : statOk (Join (Dir p) (proposedName steps p)) = true
        · rw [if_pos h4] at h
          exact absurd h e1
        · refine ⟨h1, ?_, by omega, by simpa using h4⟩
          simpa using h2

theorem splitSlash_ne_nil (l : List Char) : splitSlash l ≠ [] := by
  cases l with
  | nil => simp [splitSlash]
  | cons c cs =>
    unfold splitSlash
    split <;> split_ifs <;> simp

theorem splitSlash_of_no_sep (n : List Char) (h : '/' ∉ n) : splitSlash n = [n] := by
  induction n with
  | nil => rfl
  | cons c cs ih =>
    have hc : c ≠ '/' := fun e => h (e ▸ List.mem_cons_self _ _)
    have hcs : '/' ∉ cs := fun hm => h (List.mem_cons_of_mem _ hm)
    unfold splitSlash
    rw [ih hcs]
    simp [hc]

theorem splitSlash_append_sep (x n : List Char) (h : '/' ∉ n) :
    splitSlash (x ++ '/' :: n) = splitSlash x ++ [n] := by
  induction x with
  | nil =>
    simp only [List.nil_append]
    unfold splitSlash
    rw [splitSlash_of_no_sep n h]
    simp [splitSlash]
  | cons c cs ih =>
    rw [List.cons_append]
    unfold splitSlash
    rw [ih]
    cases hs : splitSlash cs with
    | nil => exact absurd hs (splitSlash_ne_nil cs)
    | cons e es =>
      simp only [List.cons_append]
      split_ifs <;> rfl

theorem splitSlash_no_sep (l : List Char) : ∀ e ∈ splitSlash l, '/' ∉ e := by
  induction l with
  | nil => simp [splitSlash]
  | cons c cs ih =>
    unfold splitSlash
    cases hs : splitSlash cs with
    | nil => exact absurd hs (splitSlash_ne_nil cs)
    | cons e es =>
      rw [hs] at ih
      have he : '/' ∉ e := ih e (List.mem_cons_self _ _)
      have hes : ∀ x ∈ es, '/' ∉ x := fun x hx => ih x (List.mem_cons_of_mem _ hx)
      simp only []
      by_cases hc : c = '/'
      · simp only [if_pos hc]
        intro x hx
        rcases List.mem_cons.mp hx with h1 | h1
        · rw [h1]; simp
        · rcases List.mem_cons.mp h1 with h2 | h2
          · rw [h2]; exact he
          · exact hes x h2
      · simp only [if_neg hc]
        intro x hx
        rcases List.mem_cons.mp hx with h1 | h1
        · rw [h1]
          intro hm
          rcases List.mem_cons.mp hm with h2 | h2
          · exact hc h2.symm
          · exact he h2
        · exact hes x h1

theorem cleanStep_good (r : Bool) (out : List (List Char)) (e : List Char)
    (hout : goodStack out) (he : '/' ∉ e) : goodStack (cleanStep r out e) := by
  have hdd : (['.', '.'] : List Char) ≠ [] ∧ (['.', '.'] : List Char) ≠ ['.'] ∧
      '/' ∉ (['.', '.'] : List Char) := by decide
  unfold cleanStep
  by_cases h1 : e = []
  · simp only [if_pos h1]; exact hout
  · simp only [if_neg h1]
    by_cases h2 : e = ['.']
    · simp only [if_pos h2]; exact hout
    · simp only [if_neg h2]
      by_cases h3 : e = ['.', '.']
      · simp only [if_pos h3]
        cases out with
        | nil =>
          cases r
          · intro x hx
            simp only [Bool.false_eq_true, if_false, List.mem_singleton] at hx
            rw [hx]; exact hdd
          · intro x hx
            simp at hx
        | cons top rest =>
          simp only []
          by_cases ht : top = ['.', '.']
          · simp only [if_pos ht]
            intro x hx
            rcases List.mem_cons.mp hx with h | h
            · rw [h]; exact hdd
            · exact hout x (ht ▸ h)
          · simp only [if_neg ht]
            intro x hx
            exact hout x (List.mem_cons_of_mem _ hx)
      · simp only [if_neg h3]
        intro x hx
        rcases List.mem_cons.mp hx with h | h
        · rw [h]; exact ⟨h1, h2, he⟩
        · exact hout x h

theorem foldl_cleanStep_good (r : Bool) (es : List (List Char)) (out : List (List Char))
    (hout : goodStack out) (hes : ∀ e ∈ es, '/' ∉ e) :
    goodStack (es.foldl (cleanStep r) out) := by
  induction es generalizing out with
  | nil => exact hout
  | cons e rest ih =>
    rw [List.foldl_cons]
    exact ih _ (cleanStep_good r out e hout (hes e (List.mem_cons_self _ _)))
      (fun x hx => hes x (List.mem_cons_of_mem _ hx))

theorem intercalate_ne_nil (t : List Char) (ts : List (List Char)) (ht : t ≠ []) :
    List.intercalate ['/'] (t :: ts) ≠ [] := by
  cases ts with
  | nil => simpa [List.intercalate] using ht
  | cons t' ts' => simp [List.intercalate, ht]

theorem intercalate_inj (T1 T2 : List (List Char))
    (h1 : ∀ x ∈ T1, x ≠ [] ∧ '/' ∉ x) (h2 : ∀ x ∈ T2, x ≠ [] ∧ '/' ∉ x)
    (h : List.intercalate ['/'] T1 = List.intercalate ['/'] T2) : T1 = T2 := by
  cases T1 with
  | nil =>
    cases T2 with
    | nil => rfl
    | cons t ts =>
      have := intercalate_ne_nil t ts (h2 t (List.mem_cons_self _ _)).1
      rw [← h] at this
      exact absurd rfl this
  | cons t ts =>
    cases T2 with
    | nil =>
      have := intercalate_ne_nil t ts (h1 t (List.mem_cons_self _ _)).1
      rw [h] at this
      exact absurd rfl this
    | cons u us =>
      have e1 := List.splitOn_intercalate (t :: ts) '/' (fun l hl => (h1 l hl).2)
        (List.cons_ne_nil t ts)
      have e2 := List.splitOn_intercalate (u :: us) '/' (fun l hl => (h2 l hl).2)
        (List.cons_ne_nil u us)
      rw [← e1, ← e2, h]

theorem goodStack_reverse (st : List (List Char)) (h : goodStack st) :
    ∀ x ∈ st.reverse, x ≠ [] ∧ '/' ∉ x :=
  fun x hx => ⟨(h x (List.mem_reverse.mp hx)).1, (h x (List.mem_reverse.mp hx)).2.2⟩

theorem renderPath_inj (r : Bool) (s1 s2 : List (List Char)) (h1 : goodStack s1)
    (h2 : goodStack s2) (h : renderPath r s1 = renderPath r s2) : s1 = s2 := by
  have key : List.intercalate ['/'] s1.reverse = List.intercalate ['/'] s2.reverse → s1 = s2 := by
    intro hb
    have := intercalate_inj _ _ (goodStack_reverse s1 h1) (goodStack_reverse s2 h2) hb
    exact List.reverse_injective this
  have single : ∀ st : List (List Char), goodStack st →
      List.intercalate ['/'] st.reverse ≠ ['.'] := by
    intro st hst hb
    have e : List.intercalate ['/'] st.reverse = List.intercalate ['/'] [['.']] := by
      rw [hb]; rfl
    have := intercalate_inj _ _ (goodStack_reverse st hst) (by decide) e
    have hm : (['.'] : List Char) ∈ st := by
      rw [← List.mem_reverse, this]
      exact List.mem_singleton.mpr rfl
    exact (hst _ hm).2.1 rfl
  unfold renderPath at h
  cases r with
  | true =>
    simp only [if_true] at h
    have hd := congrArg String.data h
    simp only [] at hd
    exact key (List.cons.inj hd).2
  | false =>
    simp only [Bool.false_eq_true, if_false] at h
    by_cases e1 : List.intercalate ['/'] s1.reverse = []
    · by_cases e2 : List.intercalate ['/'] s2.reverse = []
      · exact key (e1.trans e2.symm)
      · rw [if_pos e1, if_neg e2] at h
        have hd := congrArg String.data h
        exact absurd hd.symm (single s2 h2)
    · by_cases e2 : List.intercalate ['/'] s2.reverse = []
      · rw [if_neg e1, if_pos e2] at h
        have hd := congrArg String.data h
        exact absurd hd (single s1 h1)
      · rw [if_neg e1, if_neg e2] at h
        exact key (congrArg String.data h)

/-- `filepath.Clean` of a non-empty path followed by a separator and one more
element: the elements of the path are kept as `Clean` keeps them, then the
last element is treated. -/
theorem Clean_append_element (d n : String) (hd : d.data ≠ []) (hn : '/' ∉ n.data) :
    Clean (d ++ "/" ++ n) =
      renderPath (d.data.head? == some '/')
        (cleanStep (d.data.head? == some '/')
          ((splitSlash d.data).foldl (cleanStep (d.data.head? == some '/')) []) n.data) := by
  have hdata : (d ++ "/" ++ n).data = d.data ++ '/' :: n.data := by
    simp only [String.data_append]
    simp
  have hne : (d ++ "/" ++ n).data ≠ [] := by
    rw [hdata]
    intro h
    exact hd (List.append_eq_nil.mp h).1
  have hhead : (d.data ++ '/' :: n.data).head? = d.data.head? := by
    cases hdd : d.data with
    | nil => exact absurd hdd hd
    | cons c cs => rfl
  have hne2 : ¬ d.data ++ '/' :: n.data = [] := hdata ▸ hne
  unfold Clean renderPath
  simp only [hdata, if_neg hne2, hhead, splitSlash_append_sep _ _ hn, List.foldl_append,
    List.foldl_cons, List.foldl_nil]

theorem cleanStep_dot (r : Bool) (S : List (List Char)) : cleanStep r S ['.'] = S := by
  simp [cleanStep]

theorem cleanStep_element (r : Bool) (S : List (List Char)) (n : List Char)
    (h1 : n ≠ []) (h2 : n ≠ ['.']) (h3 : n ≠ ['.', '.']) : cleanStep r S n = n :: S := by
  simp [cleanStep, h1, h2, h3]

theorem cleanStep_dotdot_ne (r : Bool) (S : List (List Char)) (n : List Char)
    (h3 : n ≠ ['.', '.']) : cleanStep r S ['.', '.'] ≠ n :: S := by
  have e1 : ¬ (['.', '.'] : List Char) = [] := by decide
  have e2 : ¬ (['.', '.'] : List Char) = ['.'] := by decide
  unfold cleanStep
  simp only [if_neg e1, if_neg e2, if_true]
  cases S with
  | nil =>
    cases r
    · simp only [Bool.false_eq_true, if_false]
      intro h
      exact h3 (List.cons.inj h).1.symm
    · simp
  | cons top rest =>
    simp only []
    by_cases ht : top = ['.', '.']
    · simp only [if_pos ht]
      intro h
      exact h3 (List.cons.inj h).1.symm
    · simp only [if_neg ht]
      intro h
      have := congrArg List.length h
      simp only [List.length_cons] at this
      omega

theorem cons_ne_self {α : Type} (a : α) (l : List α) : a :: l ≠ l := by
  intro h
  have := congrArg List.length h
  simp at this

/-- Two different last elements give different element stacks, except for the
pair "." and "..". -/
theorem cleanStep_inj (r : Bool) (S : List (List Char)) (n1 n2 : List Char)
    (hne : n1 ≠ n2) (h1 : n1 ≠ []) (h2 : n2 ≠ [])
    (hx : ¬ (n1 = ['.'] ∧ n2 = ['.', '.'])) (hy : ¬ (n1 = ['.', '.'] ∧ n2 = ['.'])) :
    cleanStep r S n1 ≠ cleanStep r S n2 := by
  by_cases a1 : n1 = ['.']
  · by_cases b1 : n2 = ['.']
    · exact absurd (a1.trans b1.symm) hne
    · by_cases b2 : n2 = ['.', '.']
      · exact absurd ⟨a1, b2⟩ hx
      · rw [a1, cleanStep_dot, cleanStep_element r S n2 h2 b1 b2]
        exact (cons_ne_self n2 S).symm
  · by_cases a2 : n1 = ['.', '.']
    · by_cases b1 : n2 = ['.']
      · exact absurd ⟨a2, b1⟩ hy
      · by_cases b2 : n2 = ['.', '.']
        · exact absurd (a2.trans b2.symm) hne
        · rw [a2, cleanStep_element r S n2 h2 b1 b2]
          exact cleanStep_dotdot_ne r S n2 b2
    · rw [cleanStep_element r S n1 h1 a1 a2]
      by_cases b1 : n2 = ['.']
      · rw [b1, cleanStep_dot]
        exact cons_ne_self n1 S
      · by_cases b2 : n2 = ['.', '.']
        · rw [b2]
          exact (cleanStep_dotdot_ne r S n1 a2).symm
        · rw [cleanStep_element r S n2 h2 b1 b2]
          intro h
          exact hne (List.cons.inj h).1

theorem Clean_ne_empty (s : String) : Clean s ≠ "" := by
  unfold Clean
  simp only []
  split_ifs
  · decide
  · intro h
    have := congrArg String.data h
    simp at this
  · decide
  · rename_i h1 h2 h3
    intro h
    exact h3 (congrArg String.data h)

/-- Two different names without separator, joined to the same non-empty
directory, give different paths, except for the pair "." and "..". -/
theorem Join_injective_on_names (d n1 n2 : String) (hd : d ≠ "")
    (hs1 : '/' ∉ n1.data) (hs2 : '/' ∉ n2.data) (h1 : n1 ≠ "") (h2 : n2 ≠ "")
    (hne : n1 ≠ n2) (hx : ¬ (n1 = "." ∧ n2 = "..")) (hy : ¬ (n1 = ".." ∧ n2 = ".")) :
    Join d n1 ≠ Join d n2 := by
  have hdd : d.data ≠ [] := fun h => hd (String.ext h)
  unfold Join
  rw [if_pos hd, if_pos hd, Clean_append_element d n1 hdd hs1, Clean_append_element d n2 hdd hs2]
  intro h
  have hS : goodStack ((splitSlash d.data).foldl (cleanStep (d.data.head? == some '/')) []) :=
    foldl_cleanStep_good _ _ [] (fun x hx => by simp at hx) (splitSlash_no_sep d.data)
  have hst := renderPath_inj _ _ _ (cleanStep_good _ _ _ hS hs1) (cleanStep_good _ _ _ hS hs2) h
  refine cleanStep_inj _ _ n1.data n2.data (fun e => hne (String.ext e))
    (fun e => h1 (String.ext e)) (fun e => h2 (String.ext e)) ?_ ?_ hst
  · rintro ⟨e1, e2⟩
    exact hx ⟨String.ext e1, String.ext e2⟩
  · rintro ⟨e1, e2⟩
    exact hy ⟨String.ext e1, String.ext e2⟩

theorem splitSlash_sep_cons (a rest : List Char) (h : '/' ∉ a) :
    splitSlash (a ++ '/' :: rest) = a :: splitSlash rest := by
  induction a with
  | nil =>
    simp only [List.nil_append]
    conv_lhs => unfold splitSlash
    cases hs : splitSlash rest with
    | nil => exact absurd hs (splitSlash_ne_nil rest)
    | cons e es => simp
  | cons c cs ih =>
    have hc : c ≠ '/' := fun e => h (e ▸ List.mem_cons_self _ _)
    have hcs : '/' ∉ cs := fun hm => h (List.mem_cons_of_mem _ hm)
    rw [List.cons_append]
    conv_lhs => unfold splitSlash
    rw [ih hcs]
    simp [hc]

theorem splitSlash_intercalate (T : List (List Char)) (hne : T ≠ [])
    (hT : ∀ x ∈ T, '/' ∉ x) : splitSlash (List.intercalate ['/'] T) = T := by
  induction T with
  | nil => exact absurd rfl hne
  | cons t ts ih =>
    cases ts with
    | nil =>
      have : List.intercalate ['/'] [t] = t := by simp [List.intercalate]
      rw [this]
      exact splitSlash_of_no_sep t (hT t (List.mem_cons_self _ _))
    | cons t' ts' =>
      have e : List.intercalate ['/'] (t :: t' :: ts') =
          t ++ '/' :: List.intercalate ['/'] (t' :: ts') := by
        simp [List.intercalate]
      rw [e, splitSlash_sep_cons _ _ (hT t (List.mem_cons_self _ _)),
        ih (List.cons_ne_nil _ _) (fun x hx => hT x (List.mem_cons_of_mem _ hx))]

theorem ddBottom_below (pre acc : List (List Char))
    (h : ddBottom (pre ++ ['.', '.'] :: acc)) : ∀ y ∈ acc, y = ['.', '.'] := by
  induction pre with
  | nil => exact h.1 rfl
  | cons x xs ih => exact ih h.2

theorem ddBottom_tail (pre acc : List (List Char)) (h : ddBottom (pre ++ acc)) : ddBottom acc := by
  induction pre with
  | nil => exact h
  | cons x xs ih => exact ih h.2

theorem cleanStep_ddBottom (r : Bool) (out : List (List Char)) (e : List Char)
    (h : ddBottom out) : ddBottom (cleanStep r out e) := by
  unfold cleanStep
  by_cases h1 : e = []
  · simp only [if_pos h1]; exact h
  · simp only [if_neg h1]
    by_cases h2 : e = ['.']
    · simp only [if_pos h2]; exact h
    · simp only [if_neg h2]
      by_cases h3 : e = ['.', '.']
      · simp only [if_pos h3]
        cases out with
        | nil =>
          cases r
          · simp only [Bool.false_eq_true, if_false]
            exact ⟨fun _ y hy => absurd hy (List.not_mem_nil y), trivial⟩
          · exact trivial
        | cons top rest =>
          simp only []
          by_cases ht : top = ['.', '.']
          · simp only [if_pos ht]
            refine ⟨fun _ y hy => ?_, h⟩
            rcases List.mem_cons.mp hy with e1 | e1
            · rw [e1]; exact ht
            · exact h.1 ht y e1
          · simp only [if_neg ht]
            exact h.2
      · simp only [if_neg h3]
        exact ⟨fun e3 => absurd e3 h3, h⟩

theorem cleanStep_rooted_no_dotdot (out : List (List Char)) (e : List Char)
    (h : ['.', '.'] ∉ out) : ['.', '.'] ∉ cleanStep true out e := by
  unfold cleanStep
  by_cases h1 : e = []
  · simp only [if_pos h1]; exact h
  · simp only [if_neg h1]
    by_cases h2 : e = ['.']
    · simp only [if_pos h2]; exact h
    · simp only [if_neg h2]
      by_cases h3 : e = ['.', '.']
      · simp only [if_pos h3]
        cases out with
        | nil => simp
        | cons top rest =>
          simp only []
          have ht : ¬ top = ['.', '.'] := fun e1 => h (e1 ▸ List.mem_cons_self _ _)
          simp only [if_neg ht]
          exact fun hm => h (List.mem_cons_of_mem _ hm)
      · simp only [if_neg h3]
        intro hm
        rcases List.mem_cons.mp hm with e1 | e1
        · exact h3 e1.symm
        · exact h e1

theorem foldl_cleanStep_ddBottom (r : Bool) (es out : List (List Char)) (h : ddBottom out) :
    ddBottom (es.foldl (cleanStep r) out) := by
  induction es generalizing out with
  | nil => exact h
  | cons e rest ih => exact ih _ (cleanStep_ddBottom r out e h)

theorem foldl_cleanStep_rooted (es out : List (List Char)) (h : ['.', '.'] ∉ out) :
    ['.', '.'] ∉ es.foldl (cleanStep true) out := by
  induction es generalizing out with
  | nil => exact h
  | cons e rest ih => exact ih _ (cleanStep_rooted_no_dotdot out e h)

/-- Running the loop of `filepath.Clean` again over elements it has kept keeps
them all. -/
theorem foldl_cleanStep_replay (r : Bool) (T acc : List (List Char))
    (hg : goodStack (T.reverse ++ acc)) (hb : ddBottom (T.reverse ++ acc))
    (hr : r = true → ['.', '.'] ∉ T.reverse ++ acc) :
    T.foldl (cleanStep r) acc = T.reverse ++ acc := by
  induction T generalizing acc with
  | nil => rfl
  | cons t ts ih =>
    have hshape : (t :: ts).reverse ++ acc = ts.reverse ++ t :: acc := by simp
    rw [hshape] at hg hb hr
    have ht := hg t (by simp)
    rw [List.foldl_cons, hshape]
    have hstep : cleanStep r acc t = t :: acc := by
      by_cases h3 : t = ['.', '.']
      · subst h3
        have hrf : r = false := by
          cases r
          · rfl
          · exact absurd (by simp) (hr rfl)
        have hall := ddBottom_below ts.reverse acc hb
        have e1 : ¬ (['.', '.'] : List Char) = [] := by decide
        have e2 : ¬ (['.', '.'] : List Char) = ['.'] := by decide
        unfold cleanStep
        simp only [if_neg e1, if_neg e2, if_true, hrf]
        cases acc with
        | nil => simp
        | cons top rest =>
          have : top = ['.', '.'] := hall top (List.mem_cons_self _ _)
          simp only [if_pos this]
      · exact cleanStep_element r acc t ht.1 ht.2.1 h3
    rw [hstep]
    exact ih (t :: acc) hg hb hr

theorem Clean_eq_renderPath (x : String) (hx : x.data ≠ []) :
    Clean x = renderPath (x.data.head? == some '/')
      ((splitSlash x.data).foldl (cleanStep (x.data.head? == some '/')) []) := by
  unfold Clean renderPath
  simp only [if_neg hx]

theorem intercalate_head (t : List Char) (ts : List (List Char)) (ht : t ≠ []) (hs : '/' ∉ t) :
    ((List.intercalate ['/'] (t :: ts)).head? == some '/') = false := by
  cases t with
  | nil => exact absurd rfl ht
  | cons c cs =>
    have hc : c ≠ '/' := fun e => hs (e ▸ List.mem_cons_self _ _)
    cases ts with
    | nil => simp [List.intercalate, hc]
    | cons t' ts' => simp [List.intercalate, hc]

/-- `filepath.Clean` leaves a path written by `filepath.Clean` as it is. -/
theorem Clean_renderPath (r : Bool) (S : List (List Char)) (hg : goodStack S)
    (hb : ddBottom S) (hr : r = true → ['.', '.'] ∉ S) :
    Clean (renderPath r S) = renderPath r S := by
  have hTs : ∀ x ∈ S.reverse, '/' ∉ x := fun x hx => (goodStack_reverse S hg x hx).2
  have hrev : S.reverse.reverse ++ [] = S := by simp
  have replay : S.reverse.foldl (cleanStep r) [] = S := by
    have := foldl_cleanStep_replay r S.reverse [] (by rw [hrev]; exact hg) (by rw [hrev]; exact hb)
      (by rw [hrev]; exact hr)
    rw [this, hrev]
  cases r with
  | true =>
    have hdata : (renderPath true S).data = '/' :: List.intercalate ['/'] S.reverse := by
      simp [renderPath]
    have hne : (renderPath true S).data ≠ [] := by rw [hdata]; simp
    rw [Clean_eq_renderPath _ hne, hdata]
    have hhead : ((('/' : Char) :: List.intercalate ['/'] S.reverse).head? == some '/') = true := by
      simp
    rw [hhead]
    congr 1
    by_cases hS : S.reverse = []
    · have hS' : S = [] := by simpa using hS
      subst hS'
      decide
    · have e : ('/' : Char) :: List.intercalate ['/'] S.reverse =
          [] ++ '/' :: List.intercalate ['/'] S.reverse := rfl
      rw [e, splitSlash_sep_cons [] _ (by simp), splitSlash_intercalate _ hS hTs,
        List.foldl_cons]
      have : cleanStep true [] [] = [] := by simp [cleanStep]
      rw [this]
      exact replay
  | false =>
    by_cases hbody : List.intercalate ['/'] S.reverse = []
    · have e : renderPath false S = "." := by
        unfold renderPath
        simp only [Bool.false_eq_true, if_false, if_pos hbody]
      rw [e]
      decide
    · have hdata : (renderPath false S).data = List.intercalate ['/'] S.reverse := by
        unfold renderPath
        simp only [Bool.false_eq_true, if_false, if_neg hbody]
      have hne : (renderPath false S).data ≠ [] := by rw [hdata]; exact hbody
      have hS : S.reverse ≠ [] := by
        intro h0
        apply hbody
        rw [h0]
        rfl
      rw [Clean_eq_renderPath _ hne, hdata]
      have hhead : ((List.intercalate ['/'] S.reverse).head? == some '/') = false := by
        cases hT : S.reverse with
        | nil => exact absurd hT hS
        | cons t ts =>
          have ht := goodStack_reverse S hg t (by rw [hT]; exact List.mem_cons_self _ _)
          exact intercalate_head t ts ht.1 ht.2
      rw [hhead, splitSlash_intercalate _ hS hTs, replay]

/-- Go `filepath.Clean` is idempotent. -/
theorem Clean_idempotent (x : String) : Clean (Clean x) = Clean x := by
  by_cases hx : x.data = []
  · have e : Clean x = "." := by
      unfold Clean
      simp only [if_pos hx]
    rw [e]
    decide
  · rw [Clean_eq_renderPath x hx]
    have hg : goodStack ((splitSlash x.data).foldl (cleanStep (x.data.head? == some '/')) []) :=
      foldl_cleanStep_good _ _ [] (fun y hy => by simp at hy) (splitSlash_no_sep x.data)
    have hb : ddBottom ((splitSlash x.data).foldl (cleanStep (x.data.head? == some '/')) []) :=
      foldl_cleanStep_ddBottom _ _ [] trivial
    apply Clean_renderPath _ _ hg hb
    intro hr
    rw [hr]
    exact foldl_cleanStep_rooted _ [] (by simp)

/-- The name "." joined to a directory given by `filepath.Dir` is that
directory. -/
theorem Join_Dir_dot (p : String) : Join (Dir p) "." = Dir p := by
  have hd : Dir p ≠ "" := Clean_ne_empty _
  have hdd : (Dir p).data ≠ [] := fun h => hd (String.ext h)
  unfold Join
  rw [if_pos hd, Clean_append_element (Dir p) "." hdd (by decide)]
  have e : ("." : String).data = ['.'] := rfl
  rw [e, cleanStep_dot, ← Clean_eq_renderPath _ hdd]
  exact Clean_idempotent _

theorem items_getElem? [UnicodeTables] (statOk : String → Bool) (state : AppState) (i : Nat)
    (a : RenamePlanItem) (h : (buildPlan statOk state).1[i]? = some a) :
    ∃ p, state.filteredFiles[i]? = some p ∧ a = specItem statOk state.filteredFiles state.steps p := by
  rw [buildPlan_items, List.getElem?_map] at h
  cases hp : state.filteredFiles[i]? with
  | none => rw [hp] at h; simp at h
  | some p =>
    rw [hp] at h
    simp only [Option.map_some', Option.some.injEq] at h
    exact ⟨p, rfl, h.symm⟩

/-- C14. Every item that `buildPlan` marks "ok" has a NewName that differs from
its OldName and that `invalidNameReason` accepts (so it is not empty and holds
no path separator nor any other forbidden character), and its target path, the
directory of the old path joined with the new name, does not exist according
to the predicate; no two distinct "ok" items of a plan have the same NewName;
so two distinct "ok" items of one folder never have the same target path, the
folder being one that exists according to the predicate, as the folder whose
files are listed does. -/
theorem buildPlan_ok_safe [UnicodeTables] (statOk : String → Bool) (state : AppState) :
    (∀ it ∈ (buildPlan statOk state).1, it.Status = "ok" →
        it.NewName ≠ it.OldName ∧ invalidNameReason it.NewName = "" ∧ it.NewName ≠ "" ∧
        (∀ c ∈ it.NewName.data, c ∉ forbiddenChars) ∧
        it.NewPath = Join (Dir it.OldPath) it.NewName ∧ statOk it.NewPath = false)
    ∧ (∀ (i j : Nat) (a b : RenamePlanItem), i ≠ j →
        (buildPlan statOk state).1[i]? = some a → (buildPlan statOk state).1[j]? = some b →
        a.Status = "ok" → b.Status = "ok" → a.NewName ≠ b.NewName)
    ∧ (∀ (i j : Nat) (a b : RenamePlanItem), i ≠ j →
        (buildPlan statOk state).1[i]? = some a → (buildPlan statOk state).1[j]? = some b →
        a.Status = "ok" → b.Status = "ok" → Dir a.OldPath = Dir b.OldPath →
        statOk (Dir a.OldPath) = true → a.NewPath ≠ b.NewPath) := by
  have names : ∀ (i j : Nat) (a b : RenamePlanItem), i ≠ j →
      (buildPlan statOk state).1[i]? = some a → (buildPlan statOk state).1[j]? = some b →
      a.Status = "ok" → b.Status = "ok" → a.NewName ≠ b.NewName := by
    intro i j a b hij ha hb hoa hob hsame
    obtain ⟨p, hp, ea⟩ := items_getElem? statOk state i a ha
    obtain ⟨q, hq, eb⟩ := items_getElem? statOk state j b hb
    subst ea
    subst eb
    have hle := (specStatusReason_ok statOk _ _ p hoa).2.2.1
    have hsame' : proposedName state.steps p = proposedName state.steps q := hsame
    have hdup : 1 < duplicateCount state.filteredFiles state.steps
        (proposedName state.steps p) := by
      unfold duplicateCount
      rcases Nat.lt_or_gt_of_ne hij with h | h
      · exact countP_two_positions _ _ i j p q h hp hq (by simp) (by simp [hsame'])
      · exact countP_two_positions _ _ j i q p h hq hp (by simp [hsame']) (by simp)
    omega
  have facts : ∀ it ∈ (buildPlan statOk state).1, it.Status = "ok" →
      it.NewName ≠ it.OldName ∧ invalidNameReason it.NewName = "" ∧ it.NewName ≠ "" ∧
      (∀ c ∈ it.NewName.data, c ∉ forbiddenChars) ∧
      it.NewPath = Join (Dir it.OldPath) it.NewName ∧ statOk it.NewPath = false := by
    intro it hit hok
    rw [buildPlan_items] at hit
    obtain ⟨p, -, e⟩ := List.mem_map.mp hit
    subst e
    obtain ⟨h1, h2, -, h4⟩ := specStatusReason_ok statOk _ _ p hok
    obtain ⟨v1, v2⟩ := valid_name_facts _ h2
    exact ⟨h1, h2, v1, v2, rfl, h4⟩
  refine ⟨facts, names, ?_⟩
  intro i j a b hij ha hb hoa hob hdir hfolder
  obtain ⟨-, -, na, fa, pa, sa⟩ := facts a (List.getElem?_mem ha) hoa
  obtain ⟨-, -, nb, fb, pb, sb⟩ := facts b (List.getElem?_mem hb) hob
  have hsep : '/' ∈ forbiddenChars := by decide
  -- the name "." would have the folder itself as target, which exists
  have hda : a.NewName ≠ "." := by
    intro e
    rw [pa, e, Join_Dir_dot, hfolder] at sa
    exact absurd sa (by decide)
  have hdb : b.NewName ≠ "." := by
    intro e
    rw [pb, e, Join_Dir_dot, ← hdir, hfolder] at sb
    exact absurd sb (by decide)
  rw [pa, pb, hdir]
  exact Join_injective_on_names (Dir b.OldPath) a.NewName b.NewName (Clean_ne_empty _)
    (fun h => fa '/' h hsep) (fun h => fb '/' h hsep) na nb (names i j a b hij ha hb hoa hob)
    (fun h => hda h.1) (fun h => hdb h.2)

/-- C14, witness: on a disk where the folder "/films" exists, the two "ok"
items of the example scenario have different target paths. -/
theorem buildPlan_ok_safe_witness :
    filmsFolderOnly (Dir "/films/The Whale.mkv") = true ∧
    (⟨"/films/The Whale.mkv", "/films/The Whale.mp4", "The Whale.mkv", "The Whale.mp4",
        "ok", ""⟩ : RenamePlanItem).NewPath ≠
      (⟨"/films/the_hobbit.mkv", "/films/The_hobbit.mp4", "the_hobbit.mkv", "The_hobbit.mp4",
        "ok", ""⟩ : RenamePlanItem).NewPath :=
  ⟨by decide,
    (@buildPlan_ok_safe asciiTables filmsFolderOnly (scenarioState false)).2.2 0 1
      ⟨"/films/The Whale.mkv", "/films/The Whale.mp4", "The Whale.mkv", "The Whale.mp4",
        "ok", ""⟩
      ⟨"/films/the_hobbit.mkv", "/films/The_hobbit.mp4", "the_hobbit.mkv", "The_hobbit.mp4",
        "ok", ""⟩
      (by decide) (by decide) (by decide) (by decide) (by decide) (by decide) (by decide)⟩

end Renforge
